import Mathlib

/-!
Verification of the llmd highlight engine.

This file gives a shallow embedding of the highlight subsystem of the llmd
markdown viewer and proves properties of it:

- the render-side highlight pipeline of src/client/highlight-renderer.ts
  (canonical text extraction, text-node offset mapping, range validation,
  node splitting and wrapping, and the renderHighlights driver);
- the client-side occurrence-index calculation of src/client/highlights.ts;
- the server-side occurrence locator, modelled from the specification
  (its implementation file is not part of the sources at hand).

JavaScript strings are modelled as lists of characters (offsets are
code-unit offsets in the source; the distinction between code units and
characters is irrelevant to the properties proved here).  The rendered DOM
is modelled as a first-child / next-sibling tree, mirroring the linked
structure the browser exposes.  DOM node identity (references held across
mutations) is modelled by a node's position in the document-order sequence
of text nodes.
-/

namespace Llmd

/-- Text content is a list of characters (a JS string). -/
abbrev Str := List Char

/-- Does the pattern t occur in s starting exactly at position p?
Mirrors the JS comparison s.slice(p, p + t.length) === t. -/
def matchesAt (s t : Str) (p : Nat) : Bool :=
  decide ((s.drop p).take t.length = t)

/-- Scan positions pos, pos+1, ... (k candidates) for the first match. -/
def indexOfScan (s t : Str) (pos : Nat) : Nat → Option Nat
  | 0 => none
  | k + 1 => if matchesAt s t pos then some pos else indexOfScan s t (pos + 1) k

/-- Model of JS String.prototype.indexOf(t, pos): the least position p with
pos <= p at which t occurs in s, or none.  (For the empty pattern JS clamps
the result to the string length and always succeeds; every call site in the
sources guarantees a nonempty pattern, see handleTextSelection in
src/client/highlights.ts, so the scanning model below is adequate.) -/
def indexOfFrom (s t : Str) (pos : Nat) : Option Nat :=
  indexOfScan s t pos (s.length + 1 - pos)

/-- The advance-by-one occurrence-counting loop of calculateOccurrenceIndex
(src/client/highlights.ts lines 340-349): after a match at position p the
next search resumes at p + 1.  The fuel argument bounds the iteration count
(the JS loop terminates because each found position is at least the current
search start; s.length + 1 units of fuel always suffice). -/
def countOccFrom (s t : Str) : Nat → Nat → Nat
  | _, 0 => 0
  | pos, fuel + 1 =>
    match indexOfFrom s t pos with
    | none => 0
    | some p => countOccFrom s t (p + 1) fuel + 1

/-- Occurrence count of t in s with the advance-by-one discipline. -/
def countOccurrences (s t : Str) : Nat :=
  countOccFrom s t 0 (s.length + 1)

/-- The same loop, collecting the matching positions instead of counting. -/
def occPositionsFrom (s t : Str) : Nat → Nat → List Nat
  | _, 0 => []
  | pos, fuel + 1 =>
    match indexOfFrom s t pos with
    | none => []
    | some p => p :: occPositionsFrom s t (p + 1) fuel

/-- All positions at which t occurs in s, scanning with an advance-by-one
step from position 0. -/
def occurrencePositions (s t : Str) : List Nat :=
  occPositionsFrom s t 0 (s.length + 1)

/-! Characterization of the searching loops: the advance-by-one scan visits
exactly the set of matching positions, in increasing order. -/

theorem indexOfScan_eq_none {s t : Str} {pos k : Nat}
    (h : indexOfScan s t pos k = none) :
    ∀ p, pos ≤ p → p < pos + k → ¬ matchesAt s t p := by
  induction k generalizing pos with
  | zero => intro p h1 h2; omega
  | succ k ih =>
    intro p h1 h2
    unfold indexOfScan at h
    by_cases hm : matchesAt s t pos
    · simp [hm] at h
    · simp only [hm, if_false] at h
      rcases Nat.eq_or_lt_of_le h1 with rfl | hlt
      · simpa using hm
      · exact ih h p hlt (by omega)

theorem indexOfScan_eq_some {s t : Str} {pos k p : Nat}
    (h : indexOfScan s t pos k = some p) :
    pos ≤ p ∧ p < pos + k ∧ matchesAt s t p = true ∧
      ∀ q, pos ≤ q → q < p → ¬ matchesAt s t q := by
  induction k generalizing pos with
  | zero => simp [indexOfScan] at h
  | succ k ih =>
    unfold indexOfScan at h
    by_cases hm : matchesAt s t pos
    · simp only [hm, if_true, Option.some.injEq] at h
      subst h
      exact ⟨Nat.le_refl _, by omega, hm, fun q h1 h2 => by omega⟩
    · simp only [hm, if_false] at h
      obtain ⟨h1, h2, h3, h4⟩ := ih h
      refine ⟨by omega, by omega, h3, ?_⟩
      intro q hq1 hq2
      rcases Nat.eq_or_lt_of_le hq1 with rfl | hlt
      · simpa using hm
      · exact h4 q hlt hq2

theorem matchesAt_le_length {s t : Str} {p : Nat} (ht : t ≠ [])
    (h : matchesAt s t p = true) : p ≤ s.length := by
  by_contra hgt
  push_neg at hgt
  have hnil : s.drop p = [] := List.drop_eq_nil_of_le (Nat.le_of_lt hgt)
  simp only [matchesAt, hnil, List.take_nil, decide_eq_true_eq] at h
  exact ht h.symm

theorem indexOfFrom_none {s t : Str} {pos : Nat}
    (h : indexOfFrom s t pos = none) :
    ∀ p, pos ≤ p → p ≤ s.length → ¬ matchesAt s t p := by
  intro p h1 h2
  by_cases hle : pos ≤ s.length
  · exact indexOfScan_eq_none h p h1 (by omega)
  · omega

theorem indexOfFrom_some {s t : Str} {pos p : Nat}
    (h : indexOfFrom s t pos = some p) :
    pos ≤ p ∧ p ≤ s.length ∧ matchesAt s t p = true ∧
      ∀ q, pos ≤ q → q < p → ¬ matchesAt s t q := by
  obtain ⟨h1, h2, h3, h4⟩ := indexOfScan_eq_some h
  exact ⟨h1, by omega, h3, h4⟩

/-- Helper: splitting the filtered range of matching positions at its least
element at or above a given threshold. -/
theorem filter_range_split (n p : Nat) (M : Nat → Bool) (hp : p < n) (hM : M p = true) :
    (List.range n).filter (fun q => decide (p ≤ q) && M q) =
      p :: (List.range n).filter (fun q => decide (p + 1 ≤ q) && M q) := by
  induction n with
  | zero => omega
  | succ n ih =>
    rw [List.range_succ, List.filter_append, List.filter_append]
    rcases Nat.lt_or_ge p n with hlt | hge
    · rw [ih hlt]
      simp only [List.cons_append]
      congr 1
      simp only [List.filter_cons, List.filter_nil]
      have : (p + 1 ≤ n) = (p ≤ n) := by
        apply propext; omega
      by_cases hMn : M n = true
      · simp [hMn, Nat.le_of_lt hlt, Nat.succ_le_of_lt hlt]
      · simp [hMn]
    · have hpn : p = n := by omega
      subst hpn
      have hempty : ∀ (c : Nat), (List.range p).filter (fun q => decide (c + p ≤ q) && M q) = [] := by
        intro c
        apply List.filter_eq_nil_iff.2
        intro q hq
        have := List.mem_range.1 hq
        simp only [Bool.and_eq_true, decide_eq_true_eq, not_and]
        omega
      have h0 := hempty 0
      simp only [Nat.zero_add] at h0
      have h1 := hempty 1
      simp only [Nat.add_comm 1 p] at h1
      rw [h0, h1]
      simp [hM]

/-- The collecting loop returns exactly the increasing list of matching
positions at or above the search start. -/
theorem occPositionsFrom_char (s t : Str) :
    ∀ fuel pos, s.length + 1 - pos ≤ fuel →
      occPositionsFrom s t pos fuel =
        (List.range (s.length + 1)).filter (fun q => decide (pos ≤ q) && matchesAt s t q) := by
  intro fuel
  induction fuel with
  | zero =>
    intro pos hle
    have : ∀ q ∈ List.range (s.length + 1), ¬ (decide (pos ≤ q) && matchesAt s t q) = true := by
      intro q hq
      have := List.mem_range.1 hq
      simp only [Bool.and_eq_true, decide_eq_true_eq, not_and]
      omega
    rw [occPositionsFrom, List.filter_eq_nil_iff.2 this]
  | succ fuel ih =>
    intro pos hle
    cases hidx : indexOfFrom s t pos with
    | none =>
      have hno := indexOfFrom_none hidx
      have : ∀ q ∈ List.range (s.length + 1), ¬ (decide (pos ≤ q) && matchesAt s t q) = true := by
        intro q hq
        have hqr := List.mem_range.1 hq
        simp only [Bool.and_eq_true, decide_eq_true_eq, not_and]
        intro hq2 hm
        exact hno q hq2 (by omega) hm
      simp only [occPositionsFrom, hidx]
      rw [List.filter_eq_nil_iff.2 this]
    | some p =>
      obtain ⟨h1, h2, h3, h4⟩ := indexOfFrom_some hidx
      have hrec := ih (p + 1) (by omega)
      simp only [occPositionsFrom, hidx]
      rw [hrec]
      have hcongr :
          (List.range (s.length + 1)).filter (fun q => decide (pos ≤ q) && matchesAt s t q) =
            (List.range (s.length + 1)).filter (fun q => decide (p ≤ q) && matchesAt s t q) := by
        apply List.filter_congr
        intro q _
        by_cases hm : matchesAt s t q = true
        · simp only [hm, Bool.and_true]
          by_cases hq : pos ≤ q
          · have : p ≤ q := by
              by_contra hqp
              push_neg at hqp
              exact h4 q hq hqp hm
            simp [hq, this]
          · have : ¬ p ≤ q := by omega
            simp [hq, this]
        · simp only [Bool.not_eq_true] at hm
          simp [hm]
      rw [hcongr]
      exact (filter_range_split (s.length + 1) p (matchesAt s t) (by omega) h3).symm

/-- The counting loop counts exactly what the collecting loop collects. -/
theorem countOccFrom_eq_length (s t : Str) :
    ∀ fuel pos, countOccFrom s t pos fuel = (occPositionsFrom s t pos fuel).length := by
  intro fuel
  induction fuel with
  | zero => intro pos; rfl
  | succ fuel ih =>
    intro pos
    rw [countOccFrom, occPositionsFrom]
    cases indexOfFrom s t pos with
    | none => rfl
    | some p => simp [ih]

/-- The advance-by-one count equals the number of positions at which the
pattern matches: overlapping occurrences are each counted separately. -/
theorem countOccurrences_char (s t : Str) :
    countOccurrences s t =
      ((List.range (s.length + 1)).filter (fun q => matchesAt s t q)).length := by
  rw [countOccurrences, countOccFrom_eq_length,
    occPositionsFrom_char s t (s.length + 1) 0 (by omega)]
  congr 1
  apply List.filter_congr
  intro q _
  simp

/-- The position list: same characterization. -/
theorem occurrencePositions_char (s t : Str) :
    occurrencePositions s t =
      (List.range (s.length + 1)).filter (fun q => matchesAt s t q) := by
  rw [occurrencePositions, occPositionsFrom_char s t (s.length + 1) 0 (by omega)]
  apply List.filter_congr
  intro q _
  simp

/-! Highlight ranges and the range validator
(validateHighlightRanges, src/client/highlight-renderer.ts lines 186-223). -/

/-- A highlight range as the renderer receives it
(type HighlightRange, src/client/highlight-renderer.ts lines 24-31). -/
structure HighlightRange where
  id : Str
  startOffset : Int
  endOffset : Int
  quote : Str
  isStale : Bool
  notes : Option Str
deriving DecidableEq

/-- Structured embedding of the error strings built by
validateHighlightRanges: each constructor records exactly the offsets
interpolated into the corresponding message template. -/
inductive ValidationError where
  | invalidRange (startOffset endOffset : Int)
  | negativeStart (startOffset : Int)
  | overlap (s1 e1 s2 e2 : Int)
deriving DecidableEq

/-- Is this error the overlapping-highlights error (as opposed to one of the
two per-range errors reported by the first validation loop)? -/
def ValidationError.isOverlap : ValidationError → Bool
  | .overlap _ _ _ _ => true
  | _ => false

/-- The per-range check of the first validation loop: startOffset >=
endOffset is reported first, then negative startOffset. -/
def rangeError (r : HighlightRange) : Option ValidationError :=
  if r.startOffset ≥ r.endOffset then some (.invalidRange r.startOffset r.endOffset)
  else if r.startOffset < 0 then some (.negativeStart r.startOffset)
  else none

/-- The first validation loop: the first individually invalid range (in
input order) produces the error. -/
def firstRangeError : List HighlightRange → Option ValidationError
  | [] => none
  | r :: rest =>
    match rangeError r with
    | some e => some e
    | none => firstRangeError rest

/-- The sort [...ranges].sort((a, b) => a.startOffset - b.startOffset): a
stable ascending sort by startOffset (insertion sort is stable, matching
the JS specification of Array.prototype.sort). -/
def sortByStart (ranges : List HighlightRange) : List HighlightRange :=
  ranges.insertionSort (fun a b => a.startOffset ≤ b.startOffset)

/-- The adjacent-pair overlap scan over the sorted list: the first adjacent
pair with current.endOffset > next.startOffset produces the error. -/
def firstOverlap : List HighlightRange → Option ValidationError
  | current :: next :: rest =>
    if current.endOffset > next.startOffset then
      some (.overlap current.startOffset current.endOffset next.startOffset next.endOffset)
    else firstOverlap (next :: rest)
  | _ => none

/-- validateHighlightRanges (src/client/highlight-renderer.ts lines
186-223): reject any individually invalid range, sort by startOffset, then
reject the first overlapping adjacent pair of the sorted sequence; on
success return the sorted copy. -/
def validateHighlightRanges (ranges : List HighlightRange) :
    Except ValidationError (List HighlightRange) :=
  match firstRangeError ranges with
  | some e => .error e
  | none =>
    match firstOverlap (sortByStart ranges) with
    | some e => .error e
    | none => .ok (sortByStart ranges)

instance : IsTotal HighlightRange (fun a b => a.startOffset ≤ b.startOffset) :=
  ⟨fun a b => Int.le_total a.startOffset b.startOffset⟩

instance : IsTrans HighlightRange (fun a b => a.startOffset ≤ b.startOffset) :=
  ⟨fun _ _ _ h1 h2 => le_trans h1 h2⟩

theorem sortByStart_perm (l : List HighlightRange) : List.Perm (sortByStart l) l :=
  List.perm_insertionSort _ _

theorem sortByStart_sorted (l : List HighlightRange) :
    (sortByStart l).Sorted (fun a b => a.startOffset ≤ b.startOffset) :=
  List.sorted_insertionSort _ _

theorem firstRangeError_eq_none {l : List HighlightRange} :
    firstRangeError l = none ↔ ∀ r ∈ l, 0 ≤ r.startOffset ∧ r.startOffset < r.endOffset := by
  induction l with
  | nil => simp [firstRangeError]
  | cons r rest ih =>
    simp only [firstRangeError]
    cases he : rangeError r with
    | some e =>
      simp only [reduceCtorEq, false_iff, not_forall]
      refine ⟨r, List.mem_cons_self r rest, ?_⟩
      unfold rangeError at he
      intro hok
      rw [if_neg (by omega), if_neg (by omega)] at he
      exact Option.noConfusion he
    | none =>
      unfold rangeError at he
      by_cases h1 : r.startOffset ≥ r.endOffset
      · rw [if_pos h1] at he; exact Option.noConfusion he
      · rw [if_neg h1] at he
        by_cases h2 : r.startOffset < 0
        · rw [if_pos h2] at he; exact Option.noConfusion he
        · rw [ih]
          constructor
          · intro hrest s hs
            rcases List.mem_cons.1 hs with rfl | hs'
            · omega
            · exact hrest s hs'
          · intro hall s hs
            exact hall s (List.mem_cons_of_mem r hs)

theorem firstRangeError_not_overlap {l : List HighlightRange} {e : ValidationError}
    (h : firstRangeError l = some e) : e.isOverlap = false := by
  induction l with
  | nil => simp [firstRangeError] at h
  | cons r rest ih =>
    simp only [firstRangeError] at h
    cases he : rangeError r with
    | some e' =>
      rw [he] at h
      injection h with h
      subst h
      unfold rangeError at he
      by_cases h1 : r.startOffset ≥ r.endOffset
      · rw [if_pos h1] at he
        injection he with he
        subst he
        rfl
      · rw [if_neg h1] at he
        by_cases h2 : r.startOffset < 0
        · rw [if_pos h2] at he
          injection he with he
          subst he
          rfl
        · rw [if_neg h2] at he; exact Option.noConfusion he
    | none =>
      rw [he] at h
      exact ih h

theorem firstOverlap_eq_none {l : List HighlightRange} :
    firstOverlap l = none ↔ l.Chain' (fun a b => a.endOffset ≤ b.startOffset) := by
  induction l with
  | nil => simp [firstOverlap]
  | cons a rest ih =>
    cases rest with
    | nil => simp [firstOverlap]
    | cons b rest' =>
      simp only [firstOverlap, List.chain'_cons]
      by_cases h : a.endOffset > b.startOffset
      · simp only [if_pos h, reduceCtorEq, false_iff, not_and]
        omega
      · rw [if_neg h, ih]
        constructor
        · intro hc; exact ⟨by omega, hc⟩
        · intro hc; exact hc.2

theorem firstOverlap_overlap {l : List HighlightRange} {e : ValidationError}
    (h : firstOverlap l = some e) : e.isOverlap = true := by
  induction l with
  | nil => simp [firstOverlap] at h
  | cons a rest ih =>
    cases rest with
    | nil => simp [firstOverlap] at h
    | cons b rest' =>
      simp only [firstOverlap] at h
      by_cases hab : a.endOffset > b.startOffset
      · rw [if_pos hab] at h
        injection h with h
        subst h
        rfl
      · rw [if_neg hab] at h
        exact ih h

/-- A test range with the given offsets (the other fields are immaterial
to validation). -/
def mkRange (s e : Int) : HighlightRange :=
  ⟨[], s, e, [], false, none⟩

/-- Claim C1: for lists of individually valid ranges, validation succeeds
with the sorted copy exactly when no adjacent pair of the sorted sequence
overlaps (a.endOffset > b.startOffset), and otherwise reports an overlap
error; the ranges [0,5) and [3,8) fail, [0,5) and [5,8) pass; an
individually invalid range (startOffset >= endOffset or negative
startOffset) is rejected with a per-range error, before and instead of any
overlap error. -/
theorem validateHighlightRanges_spec :
    (∀ ranges : List HighlightRange,
        (∀ r ∈ ranges, 0 ≤ r.startOffset ∧ r.startOffset < r.endOffset) →
        ((validateHighlightRanges ranges = .ok (sortByStart ranges) ↔
            (sortByStart ranges).Chain' (fun a b => a.endOffset ≤ b.startOffset)) ∧
          (¬ (sortByStart ranges).Chain' (fun a b => a.endOffset ≤ b.startOffset) →
            ∃ e, validateHighlightRanges ranges = .error e ∧ e.isOverlap = true))) ∧
    (∀ ranges : List HighlightRange,
        (∃ r ∈ ranges, r.startOffset ≥ r.endOffset ∨ r.startOffset < 0) →
        ∃ e, validateHighlightRanges ranges = .error e ∧ e.isOverlap = false) ∧
    validateHighlightRanges [mkRange 0 5, mkRange 3 8] =
      .error (.overlap 0 5 3 8) ∧
    validateHighlightRanges [mkRange 0 5, mkRange 5 8] =
      .ok [mkRange 0 5, mkRange 5 8] := by
  refine ⟨?_, ?_, rfl, rfl⟩
  · intro ranges hvalid
    have hnone : firstRangeError ranges = none := firstRangeError_eq_none.2 hvalid
    constructor
    · constructor
      · intro hok
        unfold validateHighlightRanges at hok
        rw [hnone] at hok
        cases hov : firstOverlap (sortByStart ranges) with
        | some e => rw [hov] at hok; exact Except.noConfusion hok
        | none => exact firstOverlap_eq_none.1 hov
      · intro hchain
        unfold validateHighlightRanges
        rw [hnone, firstOverlap_eq_none.2 hchain]
    · intro hchain
      cases hov : firstOverlap (sortByStart ranges) with
      | some e =>
        refine ⟨e, ?_, firstOverlap_overlap hov⟩
        unfold validateHighlightRanges
        rw [hnone, hov]
      | none => exact absurd (firstOverlap_eq_none.1 hov) hchain
  · intro ranges ⟨r, hr, hbad⟩
    cases he : firstRangeError ranges with
    | some e =>
      refine ⟨e, ?_, firstRangeError_not_overlap he⟩
      unfold validateHighlightRanges
      rw [he]
    | none =>
      have := firstRangeError_eq_none.1 he r hr
      omega

/-- Witness for C1 at a concrete input: the pass example is reached through
the general equivalence. -/
theorem validateHighlightRanges_spec_witness :
    validateHighlightRanges [mkRange 0 5, mkRange 5 8] =
      .ok (sortByStart [mkRange 0 5, mkRange 5 8]) :=
  ((validateHighlightRanges_spec.1 [mkRange 0 5, mkRange 5 8] (by decide)).1).2
    (by
      rw [show sortByStart [mkRange 0 5, mkRange 5 8] = [mkRange 0 5, mkRange 5 8] from rfl]
      exact List.chain'_pair.2 (by decide))

/-! A model of the rendered document tree.

The browser DOM is modelled as a first-child / next-sibling structure:
DNode.nil ends a sibling list, DNode.text is a text node, and DNode.elem is
an element carrying a tag name, a class list, an optional
data-highlight-id attribute, a first child and a next sibling.
Presentation-only attributes set on created marks (style.cursor, title) are
not modelled; they are never read back by any of the functions below. -/

inductive DNode where
  | nil : DNode
  | text (s : Str) (next : DNode) : DNode
  | elem (tag : Str) (classes : List Str) (hid : Option Str) (child : DNode) (next : DNode) :
      DNode
deriving DecidableEq

/-- The root element handed to the renderer (typically the .content
element), with its list of children.  Its own tag and classes are never
consulted by the loops below: the ancestor walk of isInsideHighlight stops
strictly below the root. -/
structure Element where
  tag : Str
  classes : List Str
  hid : Option Str
  child : DNode
deriving DecidableEq

/-- The tag name of highlight marker elements.
document.createElement("mark") produces an element whose tagName is
"MARK". -/
def markTagName : Str := "MARK".toList

/-- The marker class, "llmd-highlight". -/
def highlightClass : Str := "llmd-highlight".toList

/-- The additional class carried by stale marks, "llmd-highlight-stale". -/
def staleClass : Str := "llmd-highlight-stale".toList

/-- The test parent.tagName === "MARK" &&
parent.classList.contains("llmd-highlight")
(src/client/highlight-renderer.ts line 75). -/
def isHighlightMarkEl (tag : Str) (classes : List Str) : Bool :=
  decide (tag = markTagName) && decide (highlightClass ∈ classes)

/-- Ancestor information for a node: the (tag, classes) pairs of its
element ancestors strictly below the root, nearest first. -/
abbrev AncChain := List (Str × List Str)

/-- Document-order traversal of all text nodes of a sibling sequence,
pairing each text node's content with its ancestor chain.  This models
document.createTreeWalker(root, NodeFilter.SHOW_TEXT) together with the
parent pointers the DOM provides; a node's position in this list models
its identity (the node reference held by the JS code). -/
def textNodesWithAnc (anc : AncChain) : DNode → List (Str × AncChain)
  | .nil => []
  | .text s next => (s, anc) :: textNodesWithAnc anc next
  | .elem tag classes _ child next =>
      textNodesWithAnc ((tag, classes) :: anc) child ++ textNodesWithAnc anc next

/-- The walker sequence of a root element. -/
def walk (root : Element) : List (Str × AncChain) :=
  textNodesWithAnc [] root.child

/-- isInsideHighlight (src/client/highlight-renderer.ts lines 72-81):
walk the parent chain up to (and excluding) the root, looking for a
highlight marker element. -/
def isInsideHighlight (anc : AncChain) : Bool :=
  anc.any fun p => isHighlightMarkEl p.1 p.2

/-- The loop body of extractCanonicalText: visit walker nodes in order,
skip nodes inside highlight marks, push nonempty text parts. -/
def extractParts : List (Str × AncChain) → List Str
  | [] => []
  | (s, anc) :: rest =>
    if isInsideHighlight anc then extractParts rest
    else if s = [] then extractParts rest
    else s :: extractParts rest

/-- extractCanonicalText (src/client/highlight-renderer.ts lines 50-67):
the canonical text is the join of the collected parts. -/
def extractCanonicalText (root : Element) : Str :=
  (extractParts (walk root)).flatten

/-- Specification-side characterization of canonical text: a top-down
recursion threading an inside-a-marker flag, in place of the per-node
ancestor walk performed by the implementation. -/
def canonicalTextF (inside : Bool) : DNode → Str
  | .nil => []
  | .text s next => (if inside then [] else s) ++ canonicalTextF inside next
  | .elem tag classes _ child next =>
      canonicalTextF (inside || isHighlightMarkEl tag classes) child ++
        canonicalTextF inside next

theorem extractParts_append (l1 l2 : List (Str × AncChain)) :
    extractParts (l1 ++ l2) = extractParts l1 ++ extractParts l2 := by
  induction l1 with
  | nil => rfl
  | cons p rest ih =>
    obtain ⟨s, anc⟩ := p
    simp only [List.cons_append, extractParts, List.append_eq]
    by_cases h1 : isInsideHighlight anc
    · rw [if_pos h1, if_pos h1, ih]
    · rw [if_neg h1, if_neg h1]
      by_cases h2 : s = []
      · rw [if_pos h2, if_pos h2, ih]
      · rw [if_neg h2, if_neg h2, ih, List.cons_append]

theorem isInsideHighlight_cons (tag : Str) (classes : List Str) (anc : AncChain) :
    isInsideHighlight ((tag, classes) :: anc) =
      (isInsideHighlight anc || isHighlightMarkEl tag classes) := by
  simp [isInsideHighlight, List.any_cons, Bool.or_comm]

/-- Bridge between the implementation's ancestor-walking extraction and
the flag-threaded characterization. -/
theorem extractParts_eq_canonicalTextF (t : DNode) :
    ∀ anc : AncChain,
      (extractParts (textNodesWithAnc anc t)).flatten =
        canonicalTextF (isInsideHighlight anc) t := by
  induction t with
  | nil => intro anc; rfl
  | text s next ih =>
    intro anc
    simp only [textNodesWithAnc, extractParts, canonicalTextF]
    by_cases h1 : isInsideHighlight anc
    · rw [if_pos h1, ih anc, h1]
      simp
    · rw [if_neg h1]
      by_cases h2 : s = []
      · rw [if_pos h2, ih anc, h2]
        simp
      · rw [if_neg h2]
        simp only [List.flatten_cons]
        rw [ih anc, if_neg h1]
  | elem tag classes hid child next ihc ihn =>
    intro anc
    simp only [textNodesWithAnc, canonicalTextF, extractParts_append, List.flatten_append]
    rw [ihn anc]
    have := ihc ((tag, classes) :: anc)
    rw [isInsideHighlight_cons] at this
    rw [this]

/-- Text inside highlight markers contributes nothing to the canonical
text. -/
theorem canonicalTextF_inside (n : DNode) : canonicalTextF true n = [] := by
  induction n with
  | nil => rfl
  | text s next ih => simpa [canonicalTextF] using ih
  | elem tag classes hid child next ihc ihn =>
    simp only [canonicalTextF, Bool.true_or]
    rw [ihc, ihn]
    rfl

/-- Helper form of the extraction bridge, at the root element. -/
theorem extract_eq_canonical (root : Element) :
    extractCanonicalText root = canonicalTextF false root.child := by
  have := extractParts_eq_canonicalTextF root.child ([] : AncChain)
  simpa [extractCanonicalText, walk, isInsideHighlight] using this

/-- Claim C4: extractCanonicalText returns exactly the concatenation, in
document order and without normalization, of the text of every text node
that is not inside an existing highlight marker element (determined by the
ancestor walk of isInsideHighlight), and text inside marker elements
contributes nothing. -/
theorem extractCanonicalText_spec :
    (∀ root : Element, extractCanonicalText root = canonicalTextF false root.child) ∧
    (∀ n : DNode, canonicalTextF true n = []) :=
  ⟨extract_eq_canonical, canonicalTextF_inside⟩

/-! Text-node offset mapping
(buildTextNodeMap, src/client/highlight-renderer.ts lines 94-128). -/

/-- One record of the text node map.  nodeIdx is the node's position in
the document-order walker sequence (modelling the stored node reference);
nodeText is its text content. -/
structure TextNodeMapping where
  nodeIdx : Nat
  nodeText : Str
  globalStartOffset : Int
  globalEndOffset : Int
deriving DecidableEq

/-- The loop of buildTextNodeMap over the walker sequence, threading the
node index and the running global offset.  Nodes inside existing highlight
marks are skipped and do not advance the offset. -/
def buildMapLoop : List (Str × AncChain) → Nat → Int → List TextNodeMapping
  | [], _, _ => []
  | (s, anc) :: rest, idx, off =>
    if isInsideHighlight anc then buildMapLoop rest (idx + 1) off
    else
      ⟨idx, s, off, off + s.length⟩ :: buildMapLoop rest (idx + 1) (off + s.length)

/-- buildTextNodeMap (src/client/highlight-renderer.ts lines 94-128): map
every text node outside existing highlight marks to its global offset
interval, in document order. -/
def buildTextNodeMap (root : Element) : List TextNodeMapping :=
  buildMapLoop (walk root) 0 0

/-- An entry of the findIntersectingNodes result: a node (by identity and
content) paired with the highlight range clamped to node-local offsets. -/
structure IntersectingNode where
  nodeIdx : Nat
  nodeText : Str
  localStart : Int
  localEnd : Int
deriving DecidableEq

/-- findIntersectingNodes (src/client/highlight-renderer.ts lines
138-168): keep every mapping whose interval intersects the range, with
local offsets Math.max(0, startOffset - node.start) and
Math.min(node.textContent.length, endOffset - node.start). -/
def findIntersectingNodes (mappings : List TextNodeMapping)
    (startOffset endOffset : Int) : List IntersectingNode :=
  mappings.filterMap fun m =>
    if m.globalStartOffset < endOffset ∧ m.globalEndOffset > startOffset then
      some ⟨m.nodeIdx, m.nodeText,
        max 0 (startOffset - m.globalStartOffset),
        min (m.nodeText.length : Int) (endOffset - m.globalStartOffset)⟩
    else none

/-- Claim C5: findIntersectingNodes returns exactly the mapped nodes whose
interval intersects the range (node.start < end and node.end > start),
each paired with the clamped local offsets; and for a well-formed mapping
the clamped local offsets describe precisely the intersection of the two
intervals, moved to node-local coordinates. -/
theorem findIntersectingNodes_spec :
    (∀ (mappings : List TextNodeMapping) (startOffset endOffset : Int)
        (x : IntersectingNode),
      x ∈ findIntersectingNodes mappings startOffset endOffset ↔
        ∃ m ∈ mappings,
          (m.globalStartOffset < endOffset ∧ m.globalEndOffset > startOffset) ∧
          x = ⟨m.nodeIdx, m.nodeText,
            max 0 (startOffset - m.globalStartOffset),
            min (m.nodeText.length : Int) (endOffset - m.globalStartOffset)⟩) ∧
    (∀ (m : TextNodeMapping) (startOffset endOffset : Int),
      m.globalEndOffset = m.globalStartOffset + m.nodeText.length →
        m.globalStartOffset + max 0 (startOffset - m.globalStartOffset) =
            max m.globalStartOffset startOffset ∧
          m.globalStartOffset + min (m.nodeText.length : Int) (endOffset - m.globalStartOffset) =
            min m.globalEndOffset endOffset) := by
  constructor
  · intro mappings startOffset endOffset x
    simp only [findIntersectingNodes, List.mem_filterMap]
    constructor
    · rintro ⟨m, hm, hx⟩
      by_cases h : m.globalStartOffset < endOffset ∧ m.globalEndOffset > startOffset
      · rw [if_pos h] at hx
        injection hx with hx
        exact ⟨m, hm, h, hx.symm⟩
      · rw [if_neg h] at hx
        exact Option.noConfusion hx
    · rintro ⟨m, hm, h, rfl⟩
      exact ⟨m, hm, by rw [if_pos h]⟩
  · intro m startOffset endOffset hwf
    omega

/-- Structural facts about the map-building loop, proved in one pass:
well-formed intervals, consecutive intervals, head interval starting at
the initial offset, and text coherence with the extraction loop. -/
theorem buildMapLoop_spec (l : List (Str × AncChain)) :
    ∀ (idx : Nat) (off : Int),
      (∀ m ∈ buildMapLoop l idx off,
        m.globalEndOffset = m.globalStartOffset + m.nodeText.length) ∧
      (buildMapLoop l idx off).Chain'
        (fun a b => b.globalStartOffset = a.globalEndOffset) ∧
      (∀ m ∈ (buildMapLoop l idx off).head?, m.globalStartOffset = off) ∧
      ((buildMapLoop l idx off).map (fun m => m.nodeText)).flatten =
        (extractParts l).flatten := by
  induction l with
  | nil =>
    intro idx off
    exact ⟨by simp [buildMapLoop], by simp [buildMapLoop], by simp [buildMapLoop], rfl⟩
  | cons p rest ih =>
    intro idx off
    obtain ⟨s, anc⟩ := p
    by_cases h1 : isInsideHighlight anc
    · simp only [buildMapLoop, extractParts, if_pos h1]
      exact ih (idx + 1) off
    · obtain ⟨ihw, ihc, ihh, iht⟩ := ih (idx + 1) (off + s.length)
      simp only [buildMapLoop, extractParts, if_neg h1]
      refine ⟨?_, ?_, ?_, ?_⟩
      · intro m hm
        rcases List.mem_cons.1 hm with rfl | hm'
        · rfl
        · exact ihw m hm'
      · refine List.chain'_cons'.2 ⟨?_, ihc⟩
        intro y hy
        exact ihh y hy
      · intro m hm
        simp only [List.head?_cons, Option.mem_def, Option.some.injEq] at hm
        subst hm
        rfl
      · simp only [List.map_cons, List.flatten_cons, iht]
        by_cases h2 : s = []
        · rw [if_pos h2, h2]
          rfl
        · rw [if_neg h2]
          simp [List.flatten_cons]

/-- Node indices produced by the loop are bounded below by the running
index and strictly increasing. -/
theorem buildMapLoop_idx (l : List (Str × AncChain)) :
    ∀ (idx : Nat) (off : Int),
      (∀ m ∈ buildMapLoop l idx off, idx ≤ m.nodeIdx) ∧
      (buildMapLoop l idx off).Chain' (fun a b => a.nodeIdx < b.nodeIdx) := by
  induction l with
  | nil => intro idx off; exact ⟨by simp [buildMapLoop], by simp [buildMapLoop]⟩
  | cons p rest ih =>
    intro idx off
    obtain ⟨s, anc⟩ := p
    by_cases h1 : isInsideHighlight anc
    · simp only [buildMapLoop, if_pos h1]
      obtain ⟨ihb, ihc⟩ := ih (idx + 1) off
      exact ⟨fun m hm => Nat.le_of_succ_le (ihb m hm), ihc⟩
    · simp only [buildMapLoop, if_neg h1]
      obtain ⟨ihb, ihc⟩ := ih (idx + 1) (off + s.length)
      refine ⟨?_, ?_⟩
      · intro m hm
        rcases List.mem_cons.1 hm with rfl | hm'
        · exact Nat.le_refl _
        · exact Nat.le_of_succ_le (ihb m hm')
      · refine List.chain'_cons'.2 ⟨?_, ihc⟩
        intro y hy
        exact Nat.lt_of_succ_le (ihb y (List.mem_of_mem_head? hy))

/-- Claim C10: the offset map is coherent with canonical-text extraction:
records appear in document order (strictly increasing node indices), the
intervals are consecutive starting at 0, each interval's length is the
length of its node's text, and the concatenation of the mapped texts is
exactly the extracted canonical text. -/
theorem buildTextNodeMap_coherent (root : Element) :
    (∀ m ∈ buildTextNodeMap root,
      m.globalEndOffset = m.globalStartOffset + m.nodeText.length) ∧
    (buildTextNodeMap root).Chain' (fun a b => b.globalStartOffset = a.globalEndOffset) ∧
    (∀ m ∈ (buildTextNodeMap root).head?, m.globalStartOffset = 0) ∧
    (buildTextNodeMap root).Chain' (fun a b => a.nodeIdx < b.nodeIdx) ∧
    ((buildTextNodeMap root).map (fun m => m.nodeText)).flatten =
      extractCanonicalText root := by
  obtain ⟨hw, hc, hh, ht⟩ := buildMapLoop_spec (walk root) 0 0
  exact ⟨hw, hc, hh, (buildMapLoop_idx (walk root) 0 0).2, ht⟩

/-! Selection offset calculation
(calculateGlobalOffset, src/client/highlight-renderer.ts lines 509-541). -/

/-- The loop of calculateGlobalOffset over the walker sequence.  The
target DOM position is (targetIdx, targetOffset): targetIdx is the target
node's position in the walker sequence (modelling the node reference
compared with node === targetNode) and targetOffset the offset inside it.
If the target is found among the counted (non-highlighted) nodes, the
accumulated offset plus targetOffset is returned; otherwise the loop falls
through and returns the accumulated total. -/
def globalOffsetLoop (targetIdx : Nat) (targetOffset : Int) :
    List (Str × AncChain) → Nat → Int → Int
  | [], _, acc => acc
  | (s, anc) :: rest, idx, acc =>
    if isInsideHighlight anc then
      globalOffsetLoop targetIdx targetOffset rest (idx + 1) acc
    else if idx = targetIdx then acc + targetOffset
    else globalOffsetLoop targetIdx targetOffset rest (idx + 1) (acc + s.length)

/-- calculateGlobalOffset (src/client/highlight-renderer.ts lines
509-541). -/
def calculateGlobalOffset (root : Element) (targetIdx : Nat) (targetOffset : Int) : Int :=
  globalOffsetLoop targetIdx targetOffset (walk root) 0 0

theorem globalOffsetLoop_miss (targetIdx : Nat) (targetOffset : Int)
    (l : List (Str × AncChain)) :
    ∀ (idx : Nat) (acc : Int),
      (∀ k, idx + k = targetIdx → ∀ p ∈ l[k]?, isInsideHighlight p.2 = true) →
      globalOffsetLoop targetIdx targetOffset l idx acc =
        acc + ((extractParts l).flatten.length : Int) := by
  induction l with
  | nil =>
    intro idx acc _
    simp [globalOffsetLoop, extractParts]
  | cons p rest ih =>
    intro idx acc hmiss
    obtain ⟨s, anc⟩ := p
    have hshift : ∀ k, idx + 1 + k = targetIdx → ∀ q ∈ rest[k]?, isInsideHighlight q.2 = true := by
      intro k hk q hq
      refine hmiss (k + 1) (by omega) q ?_
      simpa using hq
    by_cases h1 : isInsideHighlight anc
    · simp only [globalOffsetLoop, extractParts, if_pos h1]
      exact ih (idx + 1) acc hshift
    · have hne : idx ≠ targetIdx := by
        intro he
        have := hmiss 0 (by omega) (s, anc) (by simp)
        exact h1 this
      simp only [globalOffsetLoop, extractParts, if_neg h1, if_neg hne]
      rw [ih (idx + 1) (acc + s.length) hshift]
      by_cases h2 : s = []
      · rw [if_pos h2, h2]
        simp
      · rw [if_neg h2]
        simp only [List.flatten_cons, List.length_append]
        push_cast
        ring

/-- Claim C9: when the target position does not lie in any text node
counted by the canonical, marker-excluding walk (it is inside an existing
highlight marker element, or not in the walker sequence at all),
calculateGlobalOffset signals no error: it returns the total length of the
canonical text, mapping every such position to the end of the document. -/
theorem calculateGlobalOffset_miss (root : Element) (targetIdx : Nat) (targetOffset : Int)
    (h : ∀ p ∈ (walk root)[targetIdx]?, isInsideHighlight p.2 = true) :
    calculateGlobalOffset root targetIdx targetOffset =
      ((extractCanonicalText root).length : Int) := by
  unfold calculateGlobalOffset extractCanonicalText
  refine globalOffsetLoop_miss targetIdx targetOffset (walk root) 0 0 ?_ |>.trans (by simp)
  intro k hk
  subst hk
  simpa using h

/-- A concrete rendered tree: a div containing an existing highlight mark
wrapping the text ab, followed by the text cd. -/
def missRoot : Element :=
  ⟨"DIV".toList, [], none,
    .elem markTagName [highlightClass] none (.text "ab".toList .nil)
      (.text "cd".toList .nil)⟩

/-- Witness for C9: in missRoot, text node 0 lies inside the existing
marker; a selection boundary inside it resolves to the end of the
canonical text (length 2). -/
theorem calculateGlobalOffset_miss_witness :
    calculateGlobalOffset missRoot 0 1 = ((extractCanonicalText missRoot).length : Int) :=
  calculateGlobalOffset_miss missRoot 0 1 (by decide)

/-! Occurrence index calculation
(calculateOccurrenceIndex, src/client/highlights.ts lines 327-352). -/

/-- The text before a selection boundary.  The code builds a Range from
the start of the content area to the boundary (targetIdx, targetOffset)
and takes Range.toString(), which concatenates the data of every text
node in the range -- including text inside existing highlight marks.
Nodes wholly before the target contribute all their text; the target node
contributes its first targetOffset characters. -/
def textBeforeLoop (targetIdx targetOffset : Nat) : List (Str × AncChain) → Nat → Str
  | [], _ => []
  | (s, _) :: rest, idx =>
    if idx = targetIdx then s.take targetOffset
    else s ++ textBeforeLoop targetIdx targetOffset rest (idx + 1)

/-- The string preRange.toString() of calculateOccurrenceIndex. -/
def textBeforeSelection (root : Element) (targetIdx targetOffset : Nat) : Str :=
  textBeforeLoop targetIdx targetOffset (walk root) 0

/-- calculateOccurrenceIndex (src/client/highlights.ts lines 327-352):
count occurrences of the selected text in the text before the selection
with the advance-by-one loop. -/
def calculateOccurrenceIndex (root : Element) (selectedText : Str)
    (targetIdx targetOffset : Nat) : Nat :=
  countOccurrences (textBeforeSelection root targetIdx targetOffset) selectedText

/-- The prefix of the canonical text (marker text excluded) before the
selection boundary: the text over which claim C3 asserts the count is
taken. -/
def canonicalBeforeLoop (targetIdx targetOffset : Nat) : List (Str × AncChain) → Nat → Str
  | [], _ => []
  | (s, anc) :: rest, idx =>
    if idx = targetIdx then
      (if isInsideHighlight anc then [] else s.take targetOffset)
    else
      (if isInsideHighlight anc then [] else s) ++
        canonicalBeforeLoop targetIdx targetOffset rest (idx + 1)

/-- The canonical text strictly before the selection boundary. -/
def canonicalTextBefore (root : Element) (targetIdx targetOffset : Nat) : Str :=
  canonicalBeforeLoop targetIdx targetOffset (walk root) 0

/-- A concrete rendered tree for the occurrence-index counterexample: an
existing highlight mark wrapping the text test, followed by a plain text
node test. -/
def occRoot : Element :=
  ⟨"DIV".toList, [], none,
    .elem markTagName [highlightClass] none (.text "test".toList .nil)
      (.text "test".toList .nil)⟩

/-- Counterexample to claim C3 as stated: selecting the plain-text
occurrence of test at the very start of the canonical text (text node 1,
offset 0) yields occurrence index 1, because the text of the preceding
highlight marker is included in preRange.toString(); but test occurs 0
times in the canonical text (which excludes marker text) before the
selection. -/
theorem calculateOccurrenceIndex_cex :
    calculateOccurrenceIndex occRoot "test".toList 1 0 = 1 ∧
      countOccurrences (canonicalTextBefore occRoot 1 0) "test".toList = 0 := by
  constructor
  · rfl
  · rfl

/-- Claim C3 as amended: calculateOccurrenceIndex returns the number of
positions at which the selected text occurs in the full text content of
the rendered document before the selection start -- including text inside
existing highlight markers -- counted with the advance-by-one step, so
overlapping occurrences are each counted separately.  The hypothesis that
the selected text is nonempty reflects the guarantee established by
handleTextSelection before this code runs (the JS loop would not terminate
on an empty search string). -/
theorem calculateOccurrenceIndex_amended (root : Element) (selectedText : Str)
    (targetIdx targetOffset : Nat) (hne : selectedText ≠ []) :
    calculateOccurrenceIndex root selectedText targetIdx targetOffset =
      ((List.range ((textBeforeSelection root targetIdx targetOffset).length + 1)).filter
        (fun q => matchesAt (textBeforeSelection root targetIdx targetOffset) selectedText q)).length :=
  countOccurrences_char _ _

/-- Witness for the amended C3 at a concrete input. -/
theorem calculateOccurrenceIndex_amended_witness :
    calculateOccurrenceIndex occRoot "test".toList 1 0 =
      ((List.range ((textBeforeSelection occRoot 1 0).length + 1)).filter
        (fun q => matchesAt (textBeforeSelection occRoot 1 0) "test".toList q)).length :=
  calculateOccurrenceIndex_amended occRoot "test".toList 1 0 (by decide)

/-! Tree mutation: removing existing marks, normalizing, splitting and
wrapping text nodes, and the renderHighlights driver
(src/client/highlight-renderer.ts lines 241-417). -/

/-- The textContent of a sibling sequence: all descendant text, marker
content included. -/
def textContentL : DNode → Str
  | .nil => []
  | .text s next => s ++ textContentL next
  | .elem _ _ _ child next => textContentL child ++ textContentL next

/-- removeExistingHighlights (src/client/highlight-renderer.ts lines
408-417).  querySelectorAll("mark.llmd-highlight") snapshots matching
elements in document order, so an outermost marker is processed first and
replaced with a text node holding its textContent; a nested marker is then
no longer in the live tree and its later replacement mutates only the
detached subtree.  The net effect on the live tree is this recursion:
every topmost marker element becomes a text node carrying its text
content. -/
def removeExistingHighlights : DNode → DNode
  | .nil => .nil
  | .text s next => .text s (removeExistingHighlights next)
  | .elem tag classes hid child next =>
    if isHighlightMarkEl tag classes then
      .text (textContentL child) (removeExistingHighlights next)
    else
      .elem tag classes hid (removeExistingHighlights child) (removeExistingHighlights next)

/-- Node.normalize(): remove empty text nodes and merge runs of adjacent
text-node siblings, recursively. -/
def normalizeD : DNode → DNode
  | .nil => .nil
  | .text s next =>
    if s = [] then normalizeD next
    else
      match normalizeD next with
      | .text s2 rest => .text (s ++ s2) rest
      | other => .text s other
  | .elem tag classes hid child next =>
    .elem tag classes hid (normalizeD child) (normalizeD next)

/-- The class list of a created mark element (splitAndWrapTextNode,
src/client/highlight-renderer.ts line 263). -/
def markClassList (isStale : Bool) : List Str :=
  if isStale then [highlightClass, staleClass] else [highlightClass]

/-- The mark element created by splitAndWrapTextNode: a MARK carrying the
highlight id, wrapping the highlighted substring as its single text child,
chained before the given next sibling. -/
def markNode (highlightId : Str) (isStale : Bool) (content : Str) (next : DNode) : DNode :=
  .elem markTagName (markClassList isStale) (some highlightId) (.text content .nil) next

/-- Prepend a text node, omitting it when the text is empty: the fragment
construction of splitAndWrapTextNode appends the before and after parts
only when nonempty. -/
def consText (s : Str) (rest : DNode) : DNode :=
  if s = [] then rest else .text s rest

/-- splitAndWrapTextNode (src/client/highlight-renderer.ts lines 241-288)
as the replacement fragment for one text node with content s: the before
part s.slice(0, localStart), the mark wrapping s.slice(localStart,
localEnd), and the after part s.slice(localEnd), spliced in front of the
original next sibling. -/
def splitAndWrapTextNode (s : Str) (localStart localEnd : Nat)
    (highlightId : Str) (isStale : Bool) (next : DNode) : DNode :=
  consText (s.take localStart)
    (markNode highlightId isStale ((s.drop localStart).take (localEnd - localStart))
      (consText (s.drop localEnd) next))

/-- Apply a family of node splits to a tree: walk all text nodes in
document order, threading the index that models node identity, and
replace each covered node by its split-and-wrap fragment.  The source
iterates over the captured node references of the intersecting-node list,
performing one independent replaceChild per node; since the replaced
nodes are pairwise distinct text nodes of the pre-pass tree, the net
effect is this simultaneous replacement. -/
def applySplitsF (f : Nat → Option (Nat × Nat)) (highlightId : Str) (isStale : Bool) :
    DNode → Nat → DNode × Nat
  | .nil, idx => (.nil, idx)
  | .text s next, idx =>
    (match f idx with
     | some (ls, le) =>
       splitAndWrapTextNode s ls le highlightId isStale
         (applySplitsF f highlightId isStale next (idx + 1)).1
     | none => .text s (applySplitsF f highlightId isStale next (idx + 1)).1,
     (applySplitsF f highlightId isStale next (idx + 1)).2)
  | .elem tag classes hid child next, idx =>
    (.elem tag classes hid (applySplitsF f highlightId isStale child idx).1
      (applySplitsF f highlightId isStale next
        (applySplitsF f highlightId isStale child idx).2).1,
     (applySplitsF f highlightId isStale next
       (applySplitsF f highlightId isStale child idx).2).2)

/-- The split family determined by an intersecting-node list: look up the
node by identity and convert the clamped local offsets to slice
positions.  String.prototype.slice truncates its arguments to the string;
localStart and localEnd are nonnegative here (localStart through
Math.max(0, -), localEnd because the node intersects the range), so
Int.toNat is the faithful conversion. -/
def splitsOf (inter : List IntersectingNode) : Nat → Option (Nat × Nat) := fun idx =>
  (inter.find? fun x => decide (x.nodeIdx = idx)).map
    fun x => (x.localStart.toNat, x.localEnd.toNat)

/-- A created mark element, as recorded in the marks map returned by
renderHighlights: the highlight id and staleness it was created with and
the text it wraps. -/
structure MarkRec where
  highlightId : Str
  isStale : Bool
  content : Str
deriving DecidableEq

/-- applyHighlightRange (src/client/highlight-renderer.ts lines 298-315):
locate the nodes intersecting the range and split-and-wrap each of them;
returns the modified tree and the created marks (one per intersecting
node, in document order). -/
def applyHighlightRange (mappings : List TextNodeMapping) (range : HighlightRange)
    (t : DNode) : DNode × List MarkRec :=
  let inter := findIntersectingNodes mappings range.startOffset range.endOffset
  ((applySplitsF (splitsOf inter) range.id range.isStale t 0).1,
    inter.map fun x =>
      ⟨range.id, range.isStale,
        (x.nodeText.drop x.localStart.toNat).take (x.localEnd.toNat - x.localStart.toNat)⟩)

/-- The step-5 loop of renderHighlights: apply the ranges in reverse
sorted order (the argument list here is already reversed), rebuilding the
text node map from the current tree before each application. -/
def applyRangesRev (root : Element) :
    List HighlightRange → Element × List (Str × List MarkRec)
  | [] => (root, [])
  | r :: rest =>
    let p := applyHighlightRange (buildTextNodeMap root) r root.child
    let q := applyRangesRev { root with child := p.1 } rest
    (q.1, (r.id, p.2) :: q.2)

/-- The outcome of renderHighlights: the marks map (keyed by highlight id,
in insertion order: last range first) or the validation error. -/
inductive RenderResult where
  | failure (e : ValidationError)
  | success (marks : List (Str × List MarkRec))
deriving DecidableEq

/-- renderHighlights (src/client/highlight-renderer.ts lines 336-403):
remove existing marks, normalize the tree, validate the ranges; on
validation failure report the error (the tree keeps the mutations of the
first two steps); with no valid ranges succeed with an empty marks map;
otherwise apply the validated ranges in reverse order, rebuilding the
offset map between applications. -/
def renderHighlights (root : Element) (ranges : List HighlightRange) :
    RenderResult × Element :=
  let root1 : Element :=
    { root with child := normalizeD (removeExistingHighlights root.child) }
  match validateHighlightRanges ranges with
  | .error e => (.failure e, root1)
  | .ok validRanges =>
    if validRanges = [] then (.success [], root1)
    else
      let q := applyRangesRev root1 validRanges.reverse
      (.success q.2, q.1)

/-- Does the tree contain a highlight marker element? -/
def hasHighlightMark : DNode → Bool
  | .nil => false
  | .text _ next => hasHighlightMark next
  | .elem tag classes _ child next =>
    isHighlightMarkEl tag classes || hasHighlightMark child || hasHighlightMark next

/-- Removal of the span [s, e) from a text, clamped to the text: the
characters before s followed by the characters from e on. -/
def intRemove (ct : Str) (s e : Int) : Str :=
  ct.take s.toNat ++ ct.drop e.toNat

/-- Removal of a sorted list of ranges from a text, processed end to
start (so that earlier removals do not shift later ranges). -/
def removeRanges (ct : Str) (sorted : List HighlightRange) : Str :=
  sorted.reverse.foldl (fun acc r => intRemove acc r.startOffset r.endOffset) ct

/-- Two ranges overlap as half-open intervals. -/
def rangesOverlap (a b : HighlightRange) : Prop :=
  a.startOffset < b.endOffset ∧ b.startOffset < a.endOffset

/-! Atomicity of renderHighlights on overlapping batches (claim C2). -/

theorem hasHighlightMark_strip (t : DNode) :
    hasHighlightMark (removeExistingHighlights t) = false := by
  induction t with
  | nil => rfl
  | text s next ih => simpa [removeExistingHighlights, hasHighlightMark] using ih
  | elem tag classes hid child next ihc ihn =>
    cases h : isHighlightMarkEl tag classes with
    | true => simp [removeExistingHighlights, h, hasHighlightMark, ihn]
    | false => simp [removeExistingHighlights, h, hasHighlightMark, ihc, ihn]

theorem hasHighlightMark_normalize (t : DNode) (h : hasHighlightMark t = false) :
    hasHighlightMark (normalizeD t) = false := by
  induction t with
  | nil => rfl
  | text s next ih =>
    have hn : hasHighlightMark next = false := by simpa [hasHighlightMark] using h
    by_cases hs : s = []
    · simpa [normalizeD, hs] using ih hn
    · simp only [normalizeD, if_neg hs]
      cases hm : normalizeD next with
      | nil => simp [hasHighlightMark]
      | text s2 rest =>
        have := ih hn
        rw [hm] at this
        simpa [hasHighlightMark] using this
      | elem tag classes hid child nx =>
        have := ih hn
        rw [hm] at this
        simpa [hasHighlightMark] using this
  | elem tag classes hid child next ihc ihn =>
    simp only [hasHighlightMark, Bool.or_eq_false_iff] at h
    simp [normalizeD, hasHighlightMark, h.1.1, ihc h.1.2, ihn h.2]

/-- On a start-sorted list of individually valid ranges, the adjacent
no-overlap chain extends to all pairs. -/
theorem chain_gap_pairwise :
    ∀ l : List HighlightRange,
      l.Sorted (fun a b => a.startOffset ≤ b.startOffset) →
      (∀ r ∈ l, r.startOffset < r.endOffset) →
      l.Chain' (fun a b => a.endOffset ≤ b.startOffset) →
      l.Pairwise (fun a b => a.endOffset ≤ b.startOffset)
  | [], _, _, _ => List.Pairwise.nil
  | a :: rest, hs, hv, hc => by
    have hrest :=
      chain_gap_pairwise rest hs.of_cons
        (fun r hr => hv r (List.mem_cons_of_mem a hr)) hc.tail
    refine List.pairwise_cons.2 ⟨?_, hrest⟩
    intro b hb
    cases rest with
    | nil => cases hb
    | cons r0 rest' =>
      have har0 : a.endOffset ≤ r0.startOffset := (List.chain'_cons.1 hc).1
      rcases List.mem_cons.1 hb with rfl | hb'
      · exact har0
      · have hr0b : r0.endOffset ≤ b.startOffset := List.rel_of_pairwise_cons hrest hb'
        have : r0.startOffset < r0.endOffset := hv r0 (by simp)
        omega

/-- A batch containing an overlapping pair never validates: among
individually valid ranges an overlapping pair forces an overlapping
adjacent pair of the sorted sequence, and an invalid range fails the first
loop. -/
theorem validate_fails_of_overlap {ranges : List HighlightRange}
    (h : ¬ ranges.Pairwise (fun a b => ¬ rangesOverlap a b)) :
    ∃ e, validateHighlightRanges ranges = .error e := by
  cases he : firstRangeError ranges with
  | some e =>
    refine ⟨e, ?_⟩
    unfold validateHighlightRanges
    rw [he]
  | none =>
    have hvalid := firstRangeError_eq_none.1 he
    cases hov : firstOverlap (sortByStart ranges) with
    | some e =>
      refine ⟨e, ?_⟩
      unfold validateHighlightRanges
      rw [he, hov]
    | none =>
      exfalso
      have hchain := firstOverlap_eq_none.1 hov
      have hsortvalid : ∀ r ∈ sortByStart ranges, r.startOffset < r.endOffset := fun r hr =>
        (hvalid r ((sortByStart_perm ranges).mem_iff.1 hr)).2
      have hpw :=
        chain_gap_pairwise (sortByStart ranges) (sortByStart_sorted ranges) hsortvalid hchain
      have hpw2 : (sortByStart ranges).Pairwise (fun a b => ¬ rangesOverlap a b) := by
        refine hpw.imp ?_
        intro a b hab hov2
        obtain ⟨h1, h2⟩ := hov2
        omega
      exact h ((List.Perm.pairwise_iff
        (fun {a b} hab hov2 => hab ⟨hov2.2, hov2.1⟩) (sortByStart_perm ranges)).1 hpw2)

/-- A concrete rendered tree with one existing highlight marker wrapping
the text x, followed by the text y. -/
def atomRoot : Element :=
  ⟨"DIV".toList, [], none,
    .elem markTagName [highlightClass] none (.text "x".toList .nil)
      (.text "y".toList .nil)⟩

/-- Counterexample to claim C2 as stated: on a tree containing an existing
marker, a batch with an overlapping pair makes renderHighlights return an
error, but the tree is not left in the state it had before the call: the
existing marker was already unwrapped and the tree normalized, because
steps 1 and 2 of the algorithm run before validation. -/
theorem renderHighlights_cex :
    (renderHighlights atomRoot [mkRange 0 5, mkRange 3 8]).1 =
      .failure (.overlap 0 5 3 8) ∧
    (renderHighlights atomRoot [mkRange 0 5, mkRange 3 8]).2 ≠ atomRoot := by
  exact ⟨rfl, by decide⟩

/-- Claim C2 as amended: when the batch contains an overlapping pair of
ranges, renderHighlights fails as a whole and applies no marker of the
batch; the resulting tree is exactly the input tree after the two
pre-validation steps (existing markers removed, text nodes re-normalized),
and in particular carries no highlight marker at all. -/
theorem renderHighlights_overlap_atomic (root : Element) (ranges : List HighlightRange)
    (h : ¬ ranges.Pairwise (fun a b => ¬ rangesOverlap a b)) :
    ∃ e, renderHighlights root ranges =
        (.failure e,
          { root with child := normalizeD (removeExistingHighlights root.child) }) ∧
      hasHighlightMark (renderHighlights root ranges).2.child = false := by
  obtain ⟨e, he⟩ := validate_fails_of_overlap h
  have hres : renderHighlights root ranges =
      (.failure e,
        { root with child := normalizeD (removeExistingHighlights root.child) }) := by
    unfold renderHighlights
    rw [he]
  refine ⟨e, hres, ?_⟩
  rw [hres]
  exact hasHighlightMark_normalize _ (hasHighlightMark_strip _)

/-- Witness for the amended C2 at a concrete input. -/
theorem renderHighlights_overlap_atomic_witness :
    ∃ e, renderHighlights atomRoot [mkRange 0 5, mkRange 3 8] =
        (.failure e,
          { atomRoot with
            child := normalizeD (removeExistingHighlights atomRoot.child) }) ∧
      hasHighlightMark (renderHighlights atomRoot [mkRange 0 5, mkRange 3 8]).2.child = false :=
  renderHighlights_overlap_atomic atomRoot [mkRange 0 5, mkRange 3 8]
    (by
      intro hp
      exact List.rel_of_pairwise_cons hp (List.mem_singleton_self _) ⟨by decide, by decide⟩)

/-! Machinery for the renderHighlights correctness proofs: the walker
loops are re-expressed as recursions over the document-order sequence of
(text, insideness) pairs. -/

/-- Membership characterization of the intersecting-node list (helper
shared by several proofs). -/
theorem mem_findIntersectingNodes {mappings : List TextNodeMapping}
    {startOffset endOffset : Int} {x : IntersectingNode} :
    x ∈ findIntersectingNodes mappings startOffset endOffset ↔
      ∃ m ∈ mappings,
        (m.globalStartOffset < endOffset ∧ m.globalEndOffset > startOffset) ∧
        x = ⟨m.nodeIdx, m.nodeText,
          max 0 (startOffset - m.globalStartOffset),
          min (m.nodeText.length : Int) (endOffset - m.globalStartOffset)⟩ := by
  simp only [findIntersectingNodes, List.mem_filterMap]
  constructor
  · rintro ⟨m, hm, hx⟩
    by_cases h : m.globalStartOffset < endOffset ∧ m.globalEndOffset > startOffset
    · rw [if_pos h] at hx
      injection hx with hx
      exact ⟨m, hm, h, hx.symm⟩
    · rw [if_neg h] at hx
      exact Option.noConfusion hx
  · rintro ⟨m, hm, h, rfl⟩
    exact ⟨m, hm, by rw [if_pos h]⟩

/-- Document-order (text, insideness) pairs of all text nodes of a
sibling sequence, threading the inside-a-marker flag. -/
def flagTexts (inside : Bool) : DNode → List (Str × Bool)
  | .nil => []
  | .text s next => (s, inside) :: flagTexts inside next
  | .elem tag classes _ child next =>
    flagTexts (inside || isHighlightMarkEl tag classes) child ++ flagTexts inside next

/-- The walker sequence determines the flag sequence. -/
theorem walk_map_flag (t : DNode) :
    ∀ anc : AncChain,
      (textNodesWithAnc anc t).map (fun p => (p.1, isInsideHighlight p.2)) =
        flagTexts (isInsideHighlight anc) t := by
  induction t with
  | nil => intro anc; rfl
  | text s next ih =>
    intro anc
    simp [textNodesWithAnc, flagTexts, ih anc]
  | elem tag classes hid child next ihc ihn =>
    intro anc
    simp only [textNodesWithAnc, flagTexts, List.map_append]
    rw [ihn anc]
    have := ihc ((tag, classes) :: anc)
    rw [isInsideHighlight_cons] at this
    rw [this]

/-- The map-building loop, expressed over (text, insideness) pairs. -/
def mapFlags : List (Str × Bool) → Nat → Int → List TextNodeMapping
  | [], _, _ => []
  | (s, b) :: rest, idx, off =>
    if b then mapFlags rest (idx + 1) off
    else ⟨idx, s, off, off + s.length⟩ :: mapFlags rest (idx + 1) (off + s.length)

theorem buildMapLoop_eq_mapFlags (l : List (Str × AncChain)) :
    ∀ idx off,
      buildMapLoop l idx off = mapFlags (l.map fun p => (p.1, isInsideHighlight p.2)) idx off := by
  induction l with
  | nil => intro idx off; rfl
  | cons p rest ih =>
    intro idx off
    obtain ⟨s, anc⟩ := p
    by_cases h : isInsideHighlight anc
    · simp [buildMapLoop, mapFlags, h, ih]
    · simp [buildMapLoop, mapFlags, h, ih]

theorem buildTextNodeMap_eq (root : Element) :
    buildTextNodeMap root = mapFlags (flagTexts false root.child) 0 0 := by
  have h := walk_map_flag root.child ([] : AncChain)
  unfold buildTextNodeMap walk
  rw [buildMapLoop_eq_mapFlags, h]
  rfl

/-- Concatenation of the non-inside texts of a flag sequence. -/
def flatNonInside (l : List (Str × Bool)) : Str :=
  (l.filterMap fun p => if p.2 then none else some p.1).flatten

theorem canonicalTextF_eq_flat (t : DNode) :
    ∀ b, canonicalTextF b t = flatNonInside (flagTexts b t) := by
  induction t with
  | nil => intro b; rfl
  | text s next ih =>
    intro b
    cases b <;> simp [canonicalTextF, flagTexts, flatNonInside, ih]
  | elem tag classes hid child next ihc ihn =>
    intro b
    simp [canonicalTextF, flagTexts, flatNonInside, List.filterMap_append, ihc, ihn]

/-- The number of text nodes of a sibling sequence. -/
def textNodeCount : DNode → Nat
  | .nil => 0
  | .text _ next => textNodeCount next + 1
  | .elem _ _ _ child next => textNodeCount child + textNodeCount next

theorem flagTexts_length (t : DNode) : ∀ b, (flagTexts b t).length = textNodeCount t := by
  induction t with
  | nil => intro b; rfl
  | text s next ih => intro b; simp [flagTexts, textNodeCount, ih]
  | elem tag classes hid child next ihc ihn =>
    intro b
    simp [flagTexts, textNodeCount, ihc, ihn]

theorem applySplitsF_idx (f : Nat → Option (Nat × Nat)) (hid : Str) (st : Bool) (t : DNode) :
    ∀ idx, (applySplitsF f hid st t idx).2 = idx + textNodeCount t := by
  induction t with
  | nil => intro idx; simp [applySplitsF, textNodeCount]
  | text s next ih =>
    intro idx
    simp only [applySplitsF, textNodeCount]
    rw [ih]
    omega
  | elem tag classes hid2 child next ihc ihn =>
    intro idx
    simp only [applySplitsF, textNodeCount]
    rw [ihn, ihc]
    omega

/-- The per-node transformation of canonical text performed by a split
family: a wrapped node keeps only the text outside [localStart, localEnd)
(the mark content is excluded from canonical text), an unwrapped node its
whole text, and a node inside a marker contributes nothing. -/
def procF (f : Nat → Option (Nat × Nat)) : List (Str × Bool) → Nat → List Str
  | [], _ => []
  | (s, b) :: rest, idx =>
    (if b then []
     else
       match f idx with
       | some (ls, le) => s.take ls ++ s.drop le
       | none => s) :: procF f rest (idx + 1)

theorem procF_congr :
    ∀ (l : List (Str × Bool)) (idx : Nat) (f g : Nat → Option (Nat × Nat)),
      (∀ i, idx ≤ i → f i = g i) → procF f l idx = procF g l idx
  | [], _, _, _, _ => rfl
  | (s, b) :: rest, idx, f, g, h => by
    simp only [procF]
    rw [h idx (Nat.le_refl idx),
      procF_congr rest (idx + 1) f g (fun i hi => h i (by omega))]

theorem procF_append (f : Nat → Option (Nat × Nat)) :
    ∀ (l1 l2 : List (Str × Bool)) (idx : Nat),
      procF f (l1 ++ l2) idx = procF f l1 idx ++ procF f l2 (idx + l1.length) := by
  intro l1
  induction l1 with
  | nil => intro l2 idx; simp [procF]
  | cons p rest ih =>
    intro l2 idx
    obtain ⟨s, b⟩ := p
    simp only [List.cons_append, procF, List.append_eq, List.length_cons]
    rw [ih]
    have hidx : idx + 1 + rest.length = idx + (rest.length + 1) := by omega
    rw [hidx]

theorem canonicalTextF_consText (b : Bool) (a : Str) (x : DNode) :
    canonicalTextF b (consText a x) = (if b then [] else a) ++ canonicalTextF b x := by
  unfold consText
  by_cases h : a = []
  · rw [if_pos h, h]
    cases b <;> simp
  · rw [if_neg h]
    rfl

theorem markNode_isMark (st : Bool) :
    isHighlightMarkEl markTagName (markClassList st) = true := by
  cases st <;> decide

theorem canonicalTextF_markNode (b : Bool) (hid : Str) (st : Bool) (content : Str) (x : DNode) :
    canonicalTextF b (markNode hid st content x) = canonicalTextF b x := by
  simp [markNode, canonicalTextF, markNode_isMark, canonicalTextF_inside]

/-- Effect of a split pass on canonical text: per text node, the wrapped
span is removed from canonical view (it moves inside a mark) while the
before and after parts remain. -/
theorem canonical_applySplitsF (f : Nat → Option (Nat × Nat)) (hid : Str) (st : Bool)
    (t : DNode) :
    ∀ (b : Bool) (idx : Nat),
      canonicalTextF b (applySplitsF f hid st t idx).1 =
        (procF f (flagTexts b t) idx).flatten := by
  induction t with
  | nil => intro b idx; rfl
  | text s next ih =>
    intro b idx
    simp only [applySplitsF, flagTexts, procF, List.flatten_cons]
    cases hf : f idx with
    | none =>
      simp only [canonicalTextF, ih b (idx + 1)]
    | some p =>
      obtain ⟨ls, le⟩ := p
      simp only [splitAndWrapTextNode, canonicalTextF_consText, canonicalTextF_markNode,
        ih b (idx + 1)]
      cases b <;> simp
  | elem tag classes hid2 child next ihc ihn =>
    intro b idx
    simp only [applySplitsF, flagTexts, canonicalTextF, procF_append, List.flatten_append]
    rw [applySplitsF_idx, flagTexts_length, ihc, ihn]

theorem mapFlags_lb (l : List (Str × Bool)) :
    ∀ (idx : Nat) (off : Int) (m : TextNodeMapping),
      m ∈ mapFlags l idx off → idx ≤ m.nodeIdx := by
  induction l with
  | nil => intro idx off m hm; simp [mapFlags] at hm
  | cons p rest ih =>
    intro idx off m hm
    obtain ⟨s, b⟩ := p
    cases b with
    | true =>
      simp only [mapFlags, if_true] at hm
      exact Nat.le_of_succ_le (ih (idx + 1) off m hm)
    | false =>
      simp only [mapFlags, Bool.false_eq_true, if_false] at hm
      rcases List.mem_cons.1 hm with rfl | hm'
      · exact Nat.le_refl _
      · exact Nat.le_of_succ_le (ih (idx + 1) (off + s.length) m hm')

theorem mapFlags_wf (l : List (Str × Bool)) :
    ∀ (idx : Nat) (off : Int) (m : TextNodeMapping),
      m ∈ mapFlags l idx off →
        m.globalEndOffset = m.globalStartOffset + m.nodeText.length := by
  induction l with
  | nil => intro idx off m hm; simp [mapFlags] at hm
  | cons p rest ih =>
    intro idx off m hm
    obtain ⟨s, b⟩ := p
    cases b with
    | true =>
      simp only [mapFlags, if_true] at hm
      exact ih (idx + 1) off m hm
    | false =>
      simp only [mapFlags, Bool.false_eq_true, if_false] at hm
      rcases List.mem_cons.1 hm with rfl | hm'
      · rfl
      · exact ih (idx + 1) (off + s.length) m hm'

theorem mapFlags_pairwise_ne (l : List (Str × Bool)) :
    ∀ (idx : Nat) (off : Int),
      (mapFlags l idx off).Pairwise (fun a b => a.nodeIdx ≠ b.nodeIdx) := by
  induction l with
  | nil => intro idx off; simp [mapFlags]
  | cons p rest ih =>
    intro idx off
    obtain ⟨s, b⟩ := p
    cases b with
    | true =>
      simp only [mapFlags, if_true]
      exact ih (idx + 1) off
    | false =>
      simp only [mapFlags, Bool.false_eq_true, if_false]
      refine List.pairwise_cons.2 ⟨?_, ih (idx + 1) (off + s.length)⟩
      intro m hm
      have := mapFlags_lb rest (idx + 1) (off + s.length) m hm
      simp only
      omega

/-- The split family determined directly by the offset map: the clamped
slice bounds for the node of the given identity, when its interval
intersects the range. -/
def ruleOf (mappings : List TextNodeMapping) (startOffset endOffset : Int) :
    Nat → Option (Nat × Nat) := fun idx =>
  (mappings.find? fun m => decide (m.nodeIdx = idx)).bind fun m =>
    if m.globalStartOffset < endOffset ∧ m.globalEndOffset > startOffset then
      some ((max 0 (startOffset - m.globalStartOffset)).toNat,
        (min (m.nodeText.length : Int) (endOffset - m.globalStartOffset)).toNat)
    else none

theorem findIntersectingNodes_cons (m : TextNodeMapping) (rest : List TextNodeMapping)
    (s e : Int) :
    findIntersectingNodes (m :: rest) s e =
      if m.globalStartOffset < e ∧ m.globalEndOffset > s then
        (⟨m.nodeIdx, m.nodeText, max 0 (s - m.globalStartOffset),
          min (m.nodeText.length : Int) (e - m.globalStartOffset)⟩ : IntersectingNode) ::
          findIntersectingNodes rest s e
      else findIntersectingNodes rest s e := by
  simp only [findIntersectingNodes, List.filterMap_cons]
  by_cases h : m.globalStartOffset < e ∧ m.globalEndOffset > s
  · rw [if_pos h, if_pos h]
  · rw [if_neg h, if_neg h]

theorem splitsOf_cons (x : IntersectingNode) (inter : List IntersectingNode) (i : Nat) :
    splitsOf (x :: inter) i =
      if x.nodeIdx = i then some (x.localStart.toNat, x.localEnd.toNat)
      else splitsOf inter i := by
  simp only [splitsOf, List.find?_cons]
  by_cases h : x.nodeIdx = i
  · rw [decide_eq_true h, if_pos h]
    rfl
  · rw [decide_eq_false h, if_neg h]

theorem ruleOf_cons (m : TextNodeMapping) (rest : List TextNodeMapping) (s e : Int) (i : Nat) :
    ruleOf (m :: rest) s e i =
      if m.nodeIdx = i then
        (if m.globalStartOffset < e ∧ m.globalEndOffset > s then
          some ((max 0 (s - m.globalStartOffset)).toNat,
            (min (m.nodeText.length : Int) (e - m.globalStartOffset)).toNat)
        else none)
      else ruleOf rest s e i := by
  simp only [ruleOf, List.find?_cons]
  by_cases h : m.nodeIdx = i
  · rw [decide_eq_true h, if_pos h]
    rfl
  · rw [decide_eq_false h, if_neg h]

/-- On maps with pairwise distinct node identities, looking a node up in
the intersecting-node list is the same as applying the intersection rule
to the map directly. -/
theorem splitsOf_eq_ruleOf (startOffset endOffset : Int) :
    ∀ mappings : List TextNodeMapping,
      mappings.Pairwise (fun a b => a.nodeIdx ≠ b.nodeIdx) →
      ∀ i, splitsOf (findIntersectingNodes mappings startOffset endOffset) i =
        ruleOf mappings startOffset endOffset i := by
  intro mappings
  induction mappings with
  | nil => intro _ i; rfl
  | cons m rest ih =>
    intro hpw i
    have hrest := ih (List.Pairwise.of_cons hpw)
    rw [findIntersectingNodes_cons, ruleOf_cons]
    by_cases hcond : m.globalStartOffset < endOffset ∧ m.globalEndOffset > startOffset
    · rw [if_pos hcond, if_pos hcond, splitsOf_cons]
      by_cases him : m.nodeIdx = i
      · rw [if_pos him, if_pos him]
      · rw [if_neg him, if_neg him]
        exact hrest i
    · rw [if_neg hcond, if_neg hcond]
      by_cases him : m.nodeIdx = i
      · rw [if_pos him]
        have hnone : (findIntersectingNodes rest startOffset endOffset).find?
            (fun x => decide (x.nodeIdx = i)) = none := by
          apply List.find?_eq_none.2
          intro x hx
          obtain ⟨m', hm', _, rfl⟩ := mem_findIntersectingNodes.1 hx
          have hne := List.rel_of_pairwise_cons hpw hm'
          simp only [decide_eq_true_eq]
          omega
        simp only [splitsOf, hnone]
        rfl
      · rw [if_neg him]
        exact hrest i

/-- Split bounds produced by findIntersectingNodes are ordered: the
clamped local start never exceeds the clamped local end, for well-formed
maps and nondegenerate ranges. -/
theorem splitsOf_wf {mappings : List TextNodeMapping} {s e : Int}
    (hwf : ∀ m ∈ mappings, m.globalEndOffset = m.globalStartOffset + m.nodeText.length)
    (hse : s ≤ e) :
    ∀ i ls le, splitsOf (findIntersectingNodes mappings s e) i = some (ls, le) → ls ≤ le := by
  intro i ls le h
  simp only [splitsOf] at h
  cases hfind : (findIntersectingNodes mappings s e).find? fun x => decide (x.nodeIdx = i) with
  | none => rw [hfind] at h; exact Option.noConfusion h
  | some x =>
    rw [hfind] at h
    injection h with h
    have hx := List.mem_of_find?_eq_some hfind
    obtain ⟨m, hm, hcond, rfl⟩ := mem_findIntersectingNodes.1 hx
    have hwfm := hwf m hm
    simp only at h
    have hle : max 0 (s - m.globalStartOffset) ≤
        min (m.nodeText.length : Int) (e - m.globalStartOffset) := by
      omega
    injection h with h1 h2
    subst h1
    subst h2
    exact Int.toNat_le_toNat hle

/-- Removing the span [s, e) from a concatenation t ++ R decomposes into
the clamped removal on t and the shifted removal on R. -/
theorem intRemove_chunk (t R : Str) (s e : Int) (hse : s ≤ e) :
    (if 0 < e ∧ (t.length : Int) > s then
        t.take (max 0 s).toNat ++ t.drop (min (t.length : Int) e).toNat
      else t) ++ intRemove R (s - t.length) (e - t.length) =
      intRemove (t ++ R) s e := by
  unfold intRemove
  by_cases hc : 0 < e ∧ (t.length : Int) > s
  · rw [if_pos hc]
    obtain ⟨hegt, hslt⟩ := hc
    have h1 : (max 0 s).toNat = s.toNat := by omega
    have h2 : (s - t.length).toNat = 0 := by omega
    rw [h1, h2]
    by_cases hel : e ≤ (t.length : Int)
    · have h3 : (min (t.length : Int) e).toNat = e.toNat := by omega
      have h4 : (e - t.length).toNat = 0 := by omega
      rw [h3, h4]
      rw [List.take_append_of_le_length (by omega), List.drop_append_of_le_length (by omega)]
      simp
    · have h3 : (min (t.length : Int) e).toNat = t.length := by omega
      rw [h3]
      rw [List.take_append_of_le_length (by omega), List.drop_append_eq_append_drop]
      have h5 : t.drop e.toNat = [] := List.drop_eq_nil_of_le (by omega)
      have h6 : e.toNat - t.length = (e - t.length).toNat := by omega
      rw [h5, h6]
      simp [List.drop_length]
  · rw [if_neg hc]
    by_cases hepos : 0 < e
    · have hsl : (t.length : Int) ≤ s := by
        by_contra hx
        exact hc ⟨hepos, by omega⟩
      rw [List.take_append_eq_append_take, List.drop_append_eq_append_drop]
      have h1 : t.take s.toNat = t := List.take_of_length_le (by omega)
      have h2 : t.drop e.toNat = [] := List.drop_eq_nil_of_le (by omega)
      have h3 : s.toNat - t.length = (s - t.length).toNat := by omega
      have h4 : e.toNat - t.length = (e - t.length).toNat := by omega
      rw [h1, h2, h3, h4]
      simp
    · have h1 : s.toNat = 0 := by omega
      have h2 : e.toNat = 0 := by omega
      have h3 : (s - t.length).toNat = 0 := by omega
      have h4 : (e - t.length).toNat = 0 := by omega
      rw [h1, h2, h3, h4]
      simp

/-- The split pass determined by the intersection rule performs exactly
the removal of the range (shifted by the starting offset) from the
canonical text. -/
theorem procF_ruleOf_remove (s e : Int) (hse : s ≤ e) :
    ∀ (l : List (Str × Bool)) (idx : Nat) (off : Int),
      (procF (ruleOf (mapFlags l idx off) s e) l idx).flatten =
        intRemove (flatNonInside l) (s - off) (e - off) := by
  intro l
  induction l with
  | nil =>
    intro idx off
    simp [procF, mapFlags, flatNonInside, intRemove]
  | cons p rest ih =>
    intro idx off
    obtain ⟨t, b⟩ := p
    cases b with
    | true =>
      simp only [mapFlags, if_true, procF, List.flatten_cons, List.nil_append]
      rw [ih (idx + 1) off]
      simp [flatNonInside]
    | false =>
      simp only [mapFlags, Bool.false_eq_true, if_false, procF, List.flatten_cons]
      have hhead : ruleOf
          ((⟨idx, t, off, off + t.length⟩ : TextNodeMapping) ::
            mapFlags rest (idx + 1) (off + t.length)) s e idx =
          if off < e ∧ off + (t.length : Int) > s then
            some ((max 0 (s - off)).toNat, (min (t.length : Int) (e - off)).toNat)
          else none := by
        rw [ruleOf_cons]
        simp
      have htail : procF
          (ruleOf ((⟨idx, t, off, off + t.length⟩ : TextNodeMapping) ::
            mapFlags rest (idx + 1) (off + t.length)) s e) rest (idx + 1) =
          procF (ruleOf (mapFlags rest (idx + 1) (off + t.length)) s e) rest (idx + 1) := by
        apply procF_congr
        intro i hi
        rw [ruleOf_cons, if_neg (by show ¬ idx = i; omega)]
      rw [hhead, htail, ih (idx + 1) (off + t.length)]
      have hflat : flatNonInside ((t, false) :: rest) = t ++ flatNonInside rest := by
        simp [flatNonInside]
      rw [hflat]
      have hs1 : s - (off + (t.length : Int)) = s - off - t.length := by ring
      have hs2 : e - (off + (t.length : Int)) = e - off - t.length := by ring
      rw [hs1, hs2]
      have hiff : (off < e ∧ off + (t.length : Int) > s) ↔
          (0 < e - off ∧ (t.length : Int) > s - off) := by omega
      have hchunk := intRemove_chunk t (flatNonInside rest) (s - off) (e - off) (by omega)
      rw [← hchunk]
      congr 1
      by_cases hcc : off < e ∧ off + (t.length : Int) > s
      · rw [if_pos hcc, if_pos (hiff.1 hcc)]
      · rw [if_neg hcc, if_neg (fun hx => hcc (hiff.2 hx))]

/-- Applying one nondegenerate range removes exactly its span from the
canonical text. -/
theorem canonical_applyHighlightRange (root : Element) (r : HighlightRange)
    (hr : r.startOffset ≤ r.endOffset) :
    canonicalTextF false (applyHighlightRange (buildTextNodeMap root) r root.child).1 =
      intRemove (canonicalTextF false root.child) r.startOffset r.endOffset := by
  unfold applyHighlightRange
  simp only
  rw [canonical_applySplitsF, buildTextNodeMap_eq]
  have hpw := mapFlags_pairwise_ne (flagTexts false root.child) 0 0
  rw [procF_congr (flagTexts false root.child) 0 _ _
    (fun i _ => splitsOf_eq_ruleOf r.startOffset r.endOffset _ hpw i)]
  rw [procF_ruleOf_remove r.startOffset r.endOffset hr, canonicalTextF_eq_flat]
  norm_num

/-- The reverse-order application loop removes all spans, last range
first. -/
theorem canonical_applyRangesRev :
    ∀ (rs : List HighlightRange) (root : Element),
      (∀ r ∈ rs, r.startOffset ≤ r.endOffset) →
      canonicalTextF false (applyRangesRev root rs).1.child =
        rs.foldl (fun acc r => intRemove acc r.startOffset r.endOffset)
          (canonicalTextF false root.child)
  | [], _, _ => rfl
  | r :: rest, root, h => by
    simp only [applyRangesRev, List.foldl_cons]
    rw [canonical_applyRangesRev rest _ (fun x hx => h x (List.mem_cons_of_mem r hx))]
    simp only
    rw [canonical_applyHighlightRange root r (h r (List.mem_cons_self r rest))]

/-- Stripping is the identity on marker-free trees. -/
theorem strip_eq_of_noMark (t : DNode) (h : hasHighlightMark t = false) :
    removeExistingHighlights t = t := by
  induction t with
  | nil => rfl
  | text s next ih =>
    simp only [hasHighlightMark] at h
    simp [removeExistingHighlights, ih h]
  | elem tag classes hid child next ihc ihn =>
    simp only [hasHighlightMark, Bool.or_eq_false_iff] at h
    simp [removeExistingHighlights, h.1.1, ihc h.1.2, ihn h.2]

/-- Normalization preserves canonical text. -/
theorem canonical_normalize (t : DNode) : ∀ b, canonicalTextF b (normalizeD t) = canonicalTextF b t := by
  induction t with
  | nil => intro b; rfl
  | text s next ih =>
    intro b
    by_cases hs : s = []
    · simp [normalizeD, hs, canonicalTextF, ih b]
    · simp only [normalizeD, if_neg hs]
      cases hm : normalizeD next with
      | nil =>
        have h0 := ih b
        rw [hm] at h0
        simp only [canonicalTextF] at h0
        simp [canonicalTextF, ← h0]
      | text s2 rest =>
        have := ih b
        rw [hm] at this
        simp only [canonicalTextF] at this
        simp only [canonicalTextF, ← this]
        cases b <;> simp
      | elem tag classes hid child nx =>
        have := ih b
        rw [hm] at this
        simp only [canonicalTextF] at this
        simp [canonicalTextF, this]
  | elem tag classes hid child next ihc ihn =>
    intro b
    simp [normalizeD, canonicalTextF, ihc, ihn]

/-- Inversion of a successful validation. -/
theorem validate_ok_inv {ranges l : List HighlightRange}
    (h : validateHighlightRanges ranges = .ok l) :
    l = sortByStart ranges ∧ firstRangeError ranges = none ∧
      firstOverlap (sortByStart ranges) = none := by
  unfold validateHighlightRanges at h
  cases he : firstRangeError ranges with
  | some e => rw [he] at h; exact Except.noConfusion h
  | none =>
    rw [he] at h
    cases ho : firstOverlap (sortByStart ranges) with
    | some e => rw [ho] at h; exact Except.noConfusion h
    | none =>
      rw [ho] at h
      injection h with h
      exact ⟨h.symm, rfl, rfl⟩

/-- A concrete rendered tree for the C7 scenario: canonical text
AB CD EF. -/
def c7Root : Element :=
  ⟨"DIV".toList, [], none, .text "AB CD EF".toList .nil⟩

/-- The stored ranges of the C7 scenario: [0,2) and [6,8). -/
def c7Ranges : List HighlightRange :=
  [⟨"a".toList, 0, 2, "AB".toList, false, none⟩,
   ⟨"b".toList, 6, 8, "EF".toList, false, none⟩]

/-- Claim C7: after applying a validated range set to a marker-free
rendered tree, re-extraction returns the original canonical text with
exactly the highlighted spans removed (in particular offsets are not
double counted on the second pass); concretely, the tree with canonical
text AB CD EF and stored ranges [0,2) and [6,8) re-extracts to CD
surrounded by the two spaces. -/
theorem renderHighlights_reextract :
    (∀ (root : Element) (ranges sorted : List HighlightRange),
      hasHighlightMark root.child = false →
      validateHighlightRanges ranges = .ok sorted →
      extractCanonicalText (renderHighlights root ranges).2 =
        removeRanges (extractCanonicalText root) sorted) ∧
    extractCanonicalText (renderHighlights c7Root c7Ranges).2 = " CD ".toList := by
  constructor
  · intro root ranges sorted hnm hv
    obtain ⟨hsorted, hrerr, _⟩ := validate_ok_inv hv
    have hvalid : ∀ r ∈ sorted, r.startOffset ≤ r.endOffset := by
      intro r hr
      have hmem : r ∈ ranges := by
        rw [hsorted] at hr
        exact (sortByStart_perm ranges).mem_iff.1 hr
      have := firstRangeError_eq_none.1 hrerr r hmem
      omega
    have hroot1 : normalizeD (removeExistingHighlights root.child) = normalizeD root.child := by
      rw [strip_eq_of_noMark root.child hnm]
    by_cases hnil : sorted = []
    · have hres : (renderHighlights root ranges).2 =
          { root with child := normalizeD (removeExistingHighlights root.child) } := by
        simp [renderHighlights, hv, hnil]
      rw [hres, hnil]
      simp only [removeRanges, List.reverse_nil, List.foldl_nil]
      rw [extract_eq_canonical, extract_eq_canonical]
      simp only [hroot1]
      exact canonical_normalize root.child false
    · have hres : (renderHighlights root ranges).2 =
          (applyRangesRev
            { root with child := normalizeD (removeExistingHighlights root.child) }
            sorted.reverse).1 := by
        simp [renderHighlights, hv, hnil]
      rw [hres, extract_eq_canonical]
      rw [canonical_applyRangesRev sorted.reverse _
        (fun r hr => hvalid r (List.mem_reverse.1 hr))]
      simp only [hroot1]
      rw [canonical_normalize root.child false]
      simp only [removeRanges]
      rw [← extract_eq_canonical]
  · rfl

/-- Witness for C7 at the concrete scenario, through the general
statement. -/
theorem renderHighlights_reextract_witness :
    extractCanonicalText (renderHighlights c7Root c7Ranges).2 =
      removeRanges (extractCanonicalText c7Root) (sortByStart c7Ranges) :=
  renderHighlights_reextract.1 c7Root c7Ranges (sortByStart c7Ranges) (by decide) (by rfl)

/-! Idempotence machinery: normal forms of normalizeD, and invariance of
the stripped-and-normalized tree under a split pass. -/

/-- Is this node a text node (used to state the no-adjacent-text-siblings
normal form)? -/
def isTextNode : DNode → Bool
  | .text _ _ => true
  | _ => false

/-- The normal form guaranteed by Node.normalize(): no empty text nodes,
no two adjacent text-node siblings, recursively. -/
def isNormal : DNode → Bool
  | .nil => true
  | .text s next => !decide (s = []) && !isTextNode next && isNormal next
  | .elem _ _ _ child next => isNormal child && isNormal next

theorem isNormal_normalizeD (t : DNode) : isNormal (normalizeD t) = true := by
  induction t with
  | nil => rfl
  | text s next ih =>
    by_cases hs : s = []
    · simpa [normalizeD, hs] using ih
    · simp only [normalizeD, if_neg hs]
      cases hm : normalizeD next with
      | nil => simp [isNormal, isTextNode, hs]
      | text s2 rest =>
        rw [hm] at ih
        simp only [isNormal, Bool.and_eq_true, Bool.not_eq_eq_eq_not, Bool.not_true] at ih ⊢
        refine ⟨⟨?_, ih.1.2⟩, ih.2⟩
        simp only [decide_eq_false_iff_not]
        intro hx
        exact hs (List.append_eq_nil.1 hx).1
      | elem tag classes hid child nx =>
        rw [hm] at ih
        simp only [isNormal, Bool.and_eq_true] at ih ⊢
        exact ⟨⟨by simpa using hs, rfl⟩, ih⟩
  | elem tag classes hid child next ihc ihn =>
    simp [normalizeD, isNormal, ihc, ihn]

theorem normalizeD_of_isNormal (t : DNode) (h : isNormal t = true) : normalizeD t = t := by
  induction t with
  | nil => rfl
  | text s next ih =>
    simp only [isNormal, Bool.and_eq_true, Bool.not_eq_eq_eq_not, Bool.not_true,
      decide_eq_false_iff_not] at h
    obtain ⟨⟨hs, htn⟩, hn⟩ := h
    simp only [normalizeD, if_neg hs, ih hn]
    cases next with
    | nil => rfl
    | text s2 rest => simp [isTextNode] at htn
    | elem tag classes hid child nx => rfl
  | elem tag classes hid child next ihc ihn =>
    simp only [isNormal, Bool.and_eq_true] at h
    simp [normalizeD, ihc h.1, ihn h.2]

theorem normalizeD_idem (t : DNode) : normalizeD (normalizeD t) = normalizeD t :=
  normalizeD_of_isNormal _ (isNormal_normalizeD t)

theorem normalizeD_text_congr (a : Str) {x y : DNode} (h : normalizeD x = normalizeD y) :
    normalizeD (.text a x) = normalizeD (.text a y) := by
  by_cases ha : a = []
  · simp [normalizeD, ha, h]
  · simp only [normalizeD, if_neg ha, h]

theorem normalizeD_merge (a b : Str) (y : DNode) :
    normalizeD (.text a (.text b y)) = normalizeD (.text (a ++ b) y) := by
  by_cases ha : a = []
  · simp [normalizeD, ha]
  · by_cases hb : b = []
    · subst hb
      simp [normalizeD, ha]
    · have hab : ¬ a ++ b = [] := by
        intro hx
        exact ha (List.append_eq_nil.1 hx).1
      simp only [normalizeD, if_neg ha, if_neg hb, if_neg hab]
      cases hm : normalizeD y with
      | nil => rfl
      | text s2 rest => simp [List.append_assoc]
      | elem tag classes hid child nx => rfl

theorem normalizeD_consText (a : Str) (x : DNode) :
    normalizeD (consText a x) = normalizeD (.text a x) := by
  by_cases ha : a = []
  · simp [consText, normalizeD, ha]
  · simp [consText, if_neg ha]

theorem strip_consText (a : Str) (x : DNode) :
    removeExistingHighlights (consText a x) = consText a (removeExistingHighlights x) := by
  by_cases ha : a = []
  · simp [consText, ha]
  · simp [consText, if_neg ha, removeExistingHighlights]

theorem strip_markNode (hid : Str) (st : Bool) (c : Str) (x : DNode) :
    removeExistingHighlights (markNode hid st c x) =
      .text c (removeExistingHighlights x) := by
  simp [markNode, removeExistingHighlights, markNode_isMark, textContentL]

/-- Splitting a string at ordered positions and re-concatenating the three
parts restores the string. -/
theorem take_mid_drop (s : Str) (ls le : Nat) (h : ls ≤ le) :
    s.take ls ++ ((s.drop ls).take (le - ls) ++ s.drop le) = s := by
  have hdd : s.drop le = (s.drop ls).drop (le - ls) := by
    rw [List.drop_drop]
    congr 1
    omega
  rw [hdd, List.take_append_drop, List.take_append_drop]

theorem textContentL_consText (a : Str) (x : DNode) :
    textContentL (consText a x) = a ++ textContentL x := by
  by_cases ha : a = []
  · simp [consText, ha]
  · simp [consText, if_neg ha, textContentL]

/-- A split pass preserves the full text content of the tree. -/
theorem textContent_applySplitsF (f : Nat → Option (Nat × Nat)) (hid : Str) (st : Bool)
    (hwf : ∀ i ls le, f i = some (ls, le) → ls ≤ le) (t : DNode) :
    ∀ idx, textContentL (applySplitsF f hid st t idx).1 = textContentL t := by
  induction t with
  | nil => intro idx; rfl
  | text s next ih =>
    intro idx
    simp only [applySplitsF]
    cases hf : f idx with
    | none => simp [textContentL, ih]
    | some p =>
      obtain ⟨ls, le⟩ := p
      simp only [splitAndWrapTextNode, textContentL_consText, markNode, textContentL,
        List.append_nil, ih (idx + 1)]
      rw [← List.append_assoc, ← List.append_assoc]
      rw [List.append_assoc (s.take ls)]
      rw [take_mid_drop s ls le (hwf idx ls le hf)]
  | elem tag classes hid2 child next ihc ihn =>
    intro idx
    simp only [applySplitsF, textContentL, ihc, ihn]

/-- A split pass does not change the stripped-and-normalized tree: each
created fragment strips back to adjacent text pieces that re-merge into
the original text node. -/
theorem canon_applySplitsF (f : Nat → Option (Nat × Nat)) (hid : Str) (st : Bool)
    (hwf : ∀ i ls le, f i = some (ls, le) → ls ≤ le) (t : DNode) :
    ∀ idx,
      normalizeD (removeExistingHighlights (applySplitsF f hid st t idx).1) =
        normalizeD (removeExistingHighlights t) := by
  induction t with
  | nil => intro idx; rfl
  | text s next ih =>
    intro idx
    simp only [applySplitsF]
    cases hf : f idx with
    | none =>
      simp only [removeExistingHighlights]
      exact normalizeD_text_congr s (ih (idx + 1))
    | some p =>
      obtain ⟨ls, le⟩ := p
      simp only [splitAndWrapTextNode, strip_consText, strip_markNode,
        removeExistingHighlights]
      rw [normalizeD_consText, if_pos (markNode_isMark st)]
      simp only [textContentL, List.append_nil]
      have h1 : normalizeD (.text ((s.drop ls).take (le - ls))
          (consText (s.drop le)
            (removeExistingHighlights (applySplitsF f hid st next (idx + 1)).1))) =
          normalizeD (.text ((s.drop ls).take (le - ls) ++ s.drop le)
            (removeExistingHighlights (applySplitsF f hid st next (idx + 1)).1)) :=
        (normalizeD_text_congr _ (normalizeD_consText _ _)).trans (normalizeD_merge _ _ _)
      rw [normalizeD_text_congr (s.take ls) h1, normalizeD_merge,
        take_mid_drop s ls le (hwf idx ls le hf)]
      exact normalizeD_text_congr s (ih (idx + 1))
  | elem tag classes hid2 child next ihc ihn =>
    intro idx
    simp only [removeExistingHighlights]
    cases hmk : isHighlightMarkEl tag classes with
    | true =>
      simp only [applySplitsF, removeExistingHighlights, hmk, if_true]
      rw [textContent_applySplitsF f hid st hwf child idx]
      exact normalizeD_text_congr _ (ihn _)
    | false =>
      simp only [applySplitsF, removeExistingHighlights, hmk, Bool.false_eq_true, if_false,
        normalizeD]
      rw [ihc idx, ihn _]

theorem applyRangesRev_shape :
    ∀ (rs : List HighlightRange) (root : Element),
      ∃ c, (applyRangesRev root rs).1 = { root with child := c }
  | [], root => ⟨root.child, rfl⟩
  | r :: rest, root => by
    obtain ⟨c, hc⟩ := applyRangesRev_shape rest
      { root with child := (applyHighlightRange (buildTextNodeMap root) r root.child).1 }
    exact ⟨c, by simpa [applyRangesRev] using hc⟩

theorem canon_applyRangesRev :
    ∀ (rs : List HighlightRange) (root : Element),
      (∀ r ∈ rs, r.startOffset ≤ r.endOffset) →
      normalizeD (removeExistingHighlights (applyRangesRev root rs).1.child) =
        normalizeD (removeExistingHighlights root.child)
  | [], _, _ => rfl
  | r :: rest, root, h => by
    have hwfm : ∀ m ∈ buildTextNodeMap root,
        m.globalEndOffset = m.globalStartOffset + m.nodeText.length :=
      (buildMapLoop_spec (walk root) 0 0).1
    have hwf : ∀ i ls le,
        splitsOf (findIntersectingNodes (buildTextNodeMap root)
          r.startOffset r.endOffset) i = some (ls, le) → ls ≤ le :=
      splitsOf_wf hwfm (h r (List.mem_cons_self r rest))
    simp only [applyRangesRev]
    rw [canon_applyRangesRev rest _ (fun x hx => h x (List.mem_cons_of_mem r hx))]
    simp only [applyHighlightRange]
    exact canon_applySplitsF _ r.id r.isStale hwf root.child 0

/-- Claim C6: renderHighlights is idempotent: running it a second time on
the resulting tree, with the same valid range set, returns the same tree
and the same marks map, because the second run first strips the created
markers back to plain text and re-merges adjacent text nodes, recovering
exactly the tree the first run applied its ranges to. -/
theorem renderHighlights_idempotent (root : Element) (ranges : List HighlightRange)
    (h : ∃ l, validateHighlightRanges ranges = .ok l) :
    renderHighlights (renderHighlights root ranges).2 ranges =
      renderHighlights root ranges := by
  obtain ⟨l, hv⟩ := h
  obtain ⟨hsorted, hrerr, _⟩ := validate_ok_inv hv
  have hvalid : ∀ r ∈ l, r.startOffset ≤ r.endOffset := by
    intro r hr
    have hmem : r ∈ ranges := by
      rw [hsorted] at hr
      exact (sortByStart_perm ranges).mem_iff.1 hr
    have := firstRangeError_eq_none.1 hrerr r hmem
    omega
  have hc1 : ∀ t : DNode,
      normalizeD (removeExistingHighlights (normalizeD (removeExistingHighlights t))) =
        normalizeD (removeExistingHighlights t) := by
    intro t
    rw [strip_eq_of_noMark _ (hasHighlightMark_normalize _ (hasHighlightMark_strip t)),
      normalizeD_idem]
  by_cases hnil : l = []
  · have hres : renderHighlights root ranges =
        (.success [],
          { root with child := normalizeD (removeExistingHighlights root.child) }) := by
      simp [renderHighlights, hv, hnil]
    rw [hres]
    simp only
    have hres2 : renderHighlights
        { root with child := normalizeD (removeExistingHighlights root.child) } ranges =
        (.success [],
          { root with child := normalizeD (removeExistingHighlights
              (normalizeD (removeExistingHighlights root.child))) }) := by
      simp [renderHighlights, hv, hnil]
    rw [hres2, hc1 root.child]
  · have hres : renderHighlights root ranges =
        (.success (applyRangesRev
            { root with child := normalizeD (removeExistingHighlights root.child) }
            l.reverse).2,
          (applyRangesRev
            { root with child := normalizeD (removeExistingHighlights root.child) }
            l.reverse).1) := by
      simp [renderHighlights, hv, hnil]
    obtain ⟨c, hcshape⟩ := applyRangesRev_shape l.reverse
      { root with child := normalizeD (removeExistingHighlights root.child) }
    have hcanon : normalizeD (removeExistingHighlights c) =
        normalizeD (removeExistingHighlights root.child) := by
      have hstep := canon_applyRangesRev l.reverse
        { root with child := normalizeD (removeExistingHighlights root.child) }
        (fun r hr => hvalid r (List.mem_reverse.1 hr))
      rw [hcshape] at hstep
      simpa using hstep.trans (hc1 root.child)
    have hres2 : renderHighlights { root with child := c } ranges =
        (.success (applyRangesRev
            { root with child := normalizeD (removeExistingHighlights c) }
            l.reverse).2,
          (applyRangesRev
            { root with child := normalizeD (removeExistingHighlights c) }
            l.reverse).1) := by
      simp [renderHighlights, hv, hnil]
    have hsnd : (renderHighlights root ranges).2 = { root with child := c } := by
      rw [hres]
      exact hcshape
    rw [hsnd, hres2, hcanon]
    exact hres.symm

/-- Witness for C6 at a concrete input: re-rendering the AB CD EF tree
with ranges [0,2) and [6,8) reproduces the first run's result exactly. -/
theorem renderHighlights_idempotent_witness :
    renderHighlights (renderHighlights c7Root c7Ranges).2 c7Ranges =
      renderHighlights c7Root c7Ranges :=
  renderHighlights_idempotent c7Root c7Ranges ⟨sortByStart c7Ranges, rfl⟩

/-! The server-side occurrence locator (claim C8).

The implementation file of findAllOccurrences and findTextOffset (the
repository's server-side src/highlights.ts) is not among the sources at
hand; only its design documentation and callers are.  The definitions
below are modelled from the specification, section 4.1. -/

/-- Modelled from the spec: the whitespace test of the normalization (the
regex whitespace class, approximated by Char.isWhitespace). -/
def isWs (c : Char) : Bool := c.isWhitespace

/-- Pair each character of a string with its raw offset. -/
def withIdx (s : Str) : List (Char × Nat) := s.zip (List.range s.length)

/-- Modelled from the spec: collapse every run of whitespace to one
space, keeping for each output character the raw offset it came from (a
collapsed run maps to the offset of its first character). -/
def squeezeWs : List (Char × Nat) → List (Char × Nat)
  | [] => []
  | (c, i) :: rest =>
    if isWs c then (' ', i) :: squeezeWs (rest.dropWhile fun p => isWs p.1)
    else (c, i) :: squeezeWs rest
termination_by l => l.length
decreasing_by
  · exact Nat.lt_succ_of_le ((List.dropWhile_sublist _).length_le)
  · exact Nat.lt_succ_self _

/-- Modelled from the spec: trim the squeezed sequence (a leading and a
trailing collapsed space are dropped). -/
def trimWs (l : List (Char × Nat)) : List (Char × Nat) :=
  ((l.dropWhile fun p => isWs p.1).reverse.dropWhile fun p => isWs p.1).reverse

/-- Modelled from the spec: the whitespace-normalized text, each
character paired with the raw offset it maps back to. -/
def normalizeWithMap (s : Str) : List (Char × Nat) :=
  trimWs (squeezeWs (withIdx s))

/-- Modelled from the spec: normalizeWhitespace(text), collapse runs of
whitespace to a single space and trim the ends. -/
def normalizeWhitespace (s : Str) : Str :=
  (normalizeWithMap s).map Prod.fst

/-- Modelled from the spec (section 4.1): findAllOccurrences(content,
searchText).  Exact advance-by-one scan first; if it finds nothing, retry
on the whitespace-normalized transforms of content and search text,
mapping normalized match offsets back to raw offsets.  Each occurrence is
returned as its raw half-open offset span. -/
def findAllOccurrences (content searchText : Str) : List (Nat × Nat) :=
  if occurrencePositions content searchText ≠ [] then
    (occurrencePositions content searchText).map fun p => (p, p + searchText.length)
  else if normalizeWhitespace searchText = [] then []
  else
    (occurrencePositions ((normalizeWithMap content).map Prod.fst)
      (normalizeWhitespace searchText)).filterMap fun q =>
      match (normalizeWithMap content)[q]?,
          (normalizeWithMap content)[q + (normalizeWhitespace searchText).length - 1]? with
      | some p0, some p1 => some (p0.2, p1.2 + 1)
      | _, _ => none

/-- Modelled from the spec: findTextOffset(content, searchText,
occurrenceIndex) returns the occurrence at the given zero-based index
from findAllOccurrences, or signals not-found when the index is out of
range for the exact-or-normalized search. -/
def findTextOffset (content searchText : Str) (occurrenceIndex : Nat) : Option (Nat × Nat) :=
  (findAllOccurrences content searchText)[occurrenceIndex]?

/-- Claim C8: for a document and search text with k occurrences (under
the exact search or, failing that, the normalized search, k being the
length of the occurrence list), findTextOffset returns the i-th
occurrence span for every i below k and signals not-found for i at or
above k; on the exact path the occurrence list consists of the spans (p,
p + length searchText) over all matching positions p in increasing order;
and concretely, on the document test test test with search text test,
occurrence index 1 resolves to the span [5, 9) and occurrence index 5 to
not-found. -/
theorem findTextOffset_spec :
    (∀ (content searchText : Str) (i : Nat),
        (∀ hi : i < (findAllOccurrences content searchText).length,
          findTextOffset content searchText i =
            some ((findAllOccurrences content searchText).get ⟨i, hi⟩)) ∧
        ((findAllOccurrences content searchText).length ≤ i →
          findTextOffset content searchText i = none)) ∧
    (∀ content searchText : Str,
        occurrencePositions content searchText ≠ [] →
        findAllOccurrences content searchText =
          ((List.range (content.length + 1)).filter
            (fun q => matchesAt content searchText q)).map
            (fun p => (p, p + searchText.length))) ∧
    findTextOffset "test test test".toList "test".toList 1 = some (5, 9) ∧
    findTextOffset "test test test".toList "test".toList 5 = none := by
  refine ⟨?_, ?_, by decide, by decide⟩
  · intro content searchText i
    constructor
    · intro hi
      unfold findTextOffset
      rw [List.getElem?_eq_getElem hi]
      rfl
    · intro hi
      unfold findTextOffset
      exact List.getElem?_eq_none hi
  · intro content searchText hne
    unfold findAllOccurrences
    rw [if_pos hne, occurrencePositions_char]

/-- Witness for C8: occurrence 1 of test in test test test, through the
general indexing statement. -/
theorem findTextOffset_spec_witness :
    findTextOffset "test test test".toList "test".toList 1 =
      some ((findAllOccurrences "test test test".toList "test".toList).get
        ⟨1, by decide⟩) :=
  (findTextOffset_spec.1 "test test test".toList "test".toList 1).1 (by decide)

end Llmd
